import Mathlib

/-!
Verification of the IP-range consolidation engine (`src/tools/cip.py`).

Modelling conventions (shallow embedding of the Python source):
* Python `int` is `Int`; Python's arbitrary-precision arithmetic right shift
  `n >> k` is floor division, which for the positive divisor `2 ^ k` equals
  Euclidean division `n / 2 ^ k`; `n & 0xFF` is `n % 256`, and
  `n & 0xFFFFFFFF` is `n % 2 ^ 32` (both exact for negative `n` as well,
  by two's-complement semantics of Python's `&` with a nonnegative mask).
  Where a genuine bitwise combination of possibly overlapping operands
  occurs in the source (`|` in `ip_to_int`, `&` of an arbitrary integer with
  the netmask in `cidr_to_ips`) we use `Int.lor` / `Int.land`, which have
  Python's two's-complement semantics.
* Python strings are `String`; `str.split(sep)` for a one-character
  separator is `splitOnChar` on the character list, `str.replace("cip-","")`
  is `removeCip` (left-to-right removal of non-overlapping occurrences),
  and `int(s)` is `parseInt` (optional leading minus sign followed by a
  nonempty run of decimal digits; exotic forms Python also accepts, such as
  surrounding whitespace, a leading plus or digit-group underscores, do not
  occur in this data flow and are not modelled).
* A Python function that can raise an uncaught exception (ValueError from
  `int`, IndexError from octet indexing, the negative shift in
  `cidr_to_ips`) is modelled in the `Option` monad, `none` meaning the
  exception propagates; list comprehensions evaluating a possibly-raising
  predicate/function on each element are `pyFilterM` / `pyMapM`.
* `list(set(xs))` is `pyDedup xs` (first-occurrence deduplication).  The
  Python iteration order of the set is unspecified, but every consumer of
  the deduplicated list in the source immediately sorts it by an integer
  key that is injective on the list's (canonical dotted-quad) elements, so
  the final sorted output is independent of that order.
* `sorted(xs, key=f)` is a stable sort of the key-decorated list by key;
  CPython's `sorted` is a stable merge sort, and a stable sort of a list
  with respect to a total preorder has a unique result, so we use the
  structurally recursive stable `List.insertionSort`, which is
  extensionally identical to it.  The keys are computed once per element
  (`pyMapM`), as CPython does, so a raising key function aborts the call.
* The `while len(acc) < k` padding walks in `expand_group_properly`
  terminate in Python because at most two of any three consecutive
  addresses are excluded; we give the recursion the explicit fuel
  `3 * k + 3`, which is enough for the walk always to collect its `k`
  addresses, so the fuel never runs out and the function agrees with the
  unbounded loop on every input.
-/

/-- Python `s.split(sep)` for a single-character separator `sep`, on the
character list of the string: keeps empty fields, never returns `[]`. -/
def splitOnChar (sep : Char) : List Char → List (List Char)
  | [] => [[]]
  | c :: rest =>
    if c = sep then [] :: splitOnChar sep rest
    else
      match splitOnChar sep rest with
      | [] => [[c]]
      | h :: t => (c :: h) :: t

/-- Python `s.replace("cip-", "")`: remove every non-overlapping occurrence
of the four characters `cip-`, scanning left to right. -/
def removeCip : List Char → List Char
  | 'c' :: 'i' :: 'p' :: '-' :: rest => removeCip rest
  | c :: rest => c :: removeCip rest
  | [] => []

/-- Value of a nonempty all-digit character run (helper for `parseInt`). -/
def parseDigits (cs : List Char) : Option Nat :=
  if cs ≠ [] ∧ cs.all Char.isDigit then
    some (cs.foldl (fun a c => 10 * a + (c.toNat - 48)) 0)
  else none

/-- Python `int(s)` on the tokens that occur in this data flow: an optional
leading minus sign followed by a nonempty run of decimal digits. -/
def parseInt (cs : List Char) : Option Int :=
  match cs with
  | '-' :: rest => (parseDigits rest).map (fun n => -(n : Int))
  | _ => (parseDigits cs).map (fun n => (n : Int))

/-- Python `".".join(parts)`. -/
def joinDots : List (List Char) → List Char
  | [] => []
  | [x] => x
  | x :: xs => x ++ '.' :: joinDots xs

/-- A Python list comprehension `[x for x in l if p(x)]` whose predicate
may raise: the predicate is evaluated on every element, left to right. -/
def pyFilterM (p : α → Option Bool) : List α → Option (List α)
  | [] => some []
  | x :: xs => do
    let b ← p x
    let rest ← pyFilterM p xs
    pure (if b then x :: rest else rest)

/-- A Python list comprehension `[f(x) for x in l]` whose function may
raise. -/
def pyMapM (f : α → Option β) : List α → Option (List β)
  | [] => some []
  | x :: xs => do
    let y ← f x
    let rest ← pyMapM f xs
    pure (y :: rest)

/-- `ip_to_int` (cip.py line 5): strip `cip-`, split on dots, parse every
field with `int`, and combine the first four fields with shifts and
bitwise or.  Fewer than four fields raises IndexError, an unparsable field
raises ValueError (both `none`); extra fields are silently ignored and
out-of-range fields are combined as-is, exactly as in the source. -/
def ip_to_int (s : String) : Option Int := do
  let clean := removeCip s.data
  let octets ← pyMapM parseInt (splitOnChar '.' clean)
  let o0 ← octets[0]?
  let o1 ← octets[1]?
  let o2 ← octets[2]?
  let o3 ← octets[3]?
  pure (Int.lor (Int.lor (Int.lor (o0 * 2 ^ 24) (o1 * 2 ^ 16)) (o2 * 2 ^ 8)) o3)

/-- `(num >> k) & 0xFF` on a Python integer. -/
def pyOctet (n : Int) (k : Nat) : Int :=
  (n / 2 ^ k) % 256

/-- `int_to_ip` (cip.py line 13): render the four masked octets as a dotted
quad.  Total on all of `Int`, as in Python. -/
def int_to_ip (n : Int) : String :=
  String.mk ((Nat.repr (pyOctet n 24).toNat).data
    ++ '.' :: (Nat.repr (pyOctet n 16).toNat).data
    ++ '.' :: (Nat.repr (pyOctet n 8).toNat).data
    ++ '.' :: (Nat.repr (pyOctet n 0).toNat).data)

/-- `is_excluded` (cip.py line 18): parse the last dot-separated field and
test membership in `(0, 255)`.  `none` models the ValueError raised when
the last field is not numeric. -/
def is_excluded (s : String) : Option Bool := do
  let last ← (splitOnChar '.' s.data).getLast?
  let v ← parseInt last
  pure (v == 0 || v == 255)

/-- `is_private_ip` (cip.py line 24): the chain of six reserved-range
checks.  The second octet is read only when the first octet selects a
range that needs it, mirroring Python's short-circuit evaluation; a
missing octet is IndexError (`none`). -/
def is_private_ip (s : String) : Option Bool := do
  let clean := removeCip s.data
  let octets ← pyMapM parseInt (splitOnChar '.' clean)
  let o0 ← octets[0]?
  if o0 = 10 then pure true
  else if o0 = 172 then do
    let o1 ← octets[1]?
    pure (decide (16 ≤ o1 ∧ o1 ≤ 31))
  else if o0 = 192 then do
    let o1 ← octets[1]?
    pure (o1 == 168)
  else if o0 = 127 then pure true
  else if o0 = 169 then do
    let o1 ← octets[1]?
    pure (o1 == 254)
  else if o0 = 100 then do
    let o1 ← octets[1]?
    pure (decide (64 ≤ o1 ∧ o1 ≤ 127))
  else pure false

/-- Python `ip.replace('cip-', '')` as used on whole tokens. -/
def pyReplaceCip (s : String) : String :=
  String.mk (removeCip s.data)

/-- The predicate of the comprehension in `filter_private_ips`:
keep `ip` when it is not private (propagating the parse exception). -/
def keepNotPrivate (ip : String) : Option Bool := do
  let b ← is_private_ip ip
  pure !b

/-- The predicate of the comprehension at cip.py line 201: keep `ip` when
it is not excluded (propagating the parse exception). -/
def keepNotExcluded (ip : String) : Option Bool := do
  let b ← is_excluded ip
  pure !b

/-- `filter_private_ips` (cip.py line 58). -/
def filter_private_ips (ip_list : List String) : Option (List String) :=
  pyFilterM keepNotPrivate ip_list

/-- Loop body of `group_by_gap` (cip.py lines 72-82): the current group is
carried as its last element `curLast` plus the earlier elements in reverse
(`curPrevRev`), so the gap test against `current_group[-1]` is a head
access. -/
def gbgLoop (mg : Int) (groups : List (List Int)) (singles : List Int)
    (curLast : Int) (curPrevRev : List Int) : List Int → List (List Int) × List Int
  | [] =>
    if curPrevRev = [] then (groups, singles ++ [curLast])
    else (groups ++ [(curLast :: curPrevRev).reverse], singles)
  | ip :: rest =>
    if ip - curLast ≤ mg then gbgLoop mg groups singles ip (curLast :: curPrevRev) rest
    else if curPrevRev = [] then gbgLoop mg groups (singles ++ [curLast]) ip [] rest
    else gbgLoop mg (groups ++ [(curLast :: curPrevRev).reverse]) singles ip [] rest

/-- `group_by_gap` (cip.py line 63). -/
def group_by_gap (ips_int : List Int) (max_gap : Int) : List (List Int) × List Int :=
  match ips_int with
  | [] => ([], [])
  | x :: rest => gbgLoop max_gap [] [] x [] rest

/-- Python `range(a, b)` on integers. -/
def intRange (a b : Int) : List Int :=
  (List.range (b - a).toNat).map (fun i : Nat => a + (i : Int))

/-- `min` of a nonempty Python list (`none` models the ValueError on an
empty list). -/
def listMin : List Int → Option Int
  | [] => none
  | x :: xs => some (xs.foldl min x)

/-- `max` of a nonempty Python list. -/
def listMax : List Int → Option Int
  | [] => none
  | x :: xs => some (xs.foldl max x)

/-- The `while len(acc) < target` padding walk in `expand_group_properly`
(cip.py lines 100-116), stepping by `step` (`-1` downward, `1` upward) and
collecting addresses that are neither excluded nor already occupied.  The
fuel argument only bounds the recursion; `3 * target + 3` steps always
suffice (at most two of any three consecutive addresses end in 0 or 255,
and the walk leaves the occupied set immediately), so the definition
agrees with Python's unbounded loop. -/
def padLoop (origSet : List Int) (target : Nat) (step : Int) :
    Nat → Int → List Int → List Int
  | 0, _, acc => acc
  | fuel + 1, current, acc =>
    if acc.length < target then
      let ip_str := int_to_ip current
      let acc' :=
        if is_excluded ip_str == some false && !(origSet.contains current) then
          acc ++ [current]
        else acc
      padLoop origSet target step fuel (current + step) acc'
    else acc

/-- Recursion core of `pyBitLength`; the first argument is fuel (the
number itself suffices, since halving reaches zero within `n` steps). -/
def bitLenAux : Nat → Nat → Nat
  | 0, _ => 0
  | fuel + 1, n => if n = 0 then 0 else bitLenAux fuel (n / 2) + 1

/-- Python `int.bit_length()` for a nonnegative integer: the number of
binary digits, 0 for 0.  (`pyBitLength_eq_size` below identifies it with
Mathlib's `Nat.size`; we use this structurally recursive form so that the
kernel can evaluate it.) -/
def pyBitLength (n : Nat) : Nat := bitLenAux n n

/-- The CIDR text built at cip.py line 135: the dotted quad of the minimum
expanded address, a slash, and the decimal prefix length. -/
def cidrTextOf (min_all : Int) (prefix_len : Nat) : String :=
  String.mk ((int_to_ip min_all).data ++ '/' :: (Nat.repr prefix_len).data)

/-- The record returned by `expand_group_properly` (cip.py lines 137-144). -/
structure ExpandResult where
  cidr : String
  ips_int : List Int
  start_ip : String
  end_ip : String
  original_count : Nat
  expanded_count : Nat
deriving DecidableEq

/-- `expand_group_properly` (cip.py line 93): pad `forward` addresses below
the minimum and `backward` above the maximum (skipping excluded and
already-present addresses), fill the interior gaps, and derive the CIDR
text from the minimum of the expanded set and the clamped prefix length.
`none` only on the empty group (Python's `min([])` ValueError), which the
callers never produce. -/
def expand_group_properly (group : List Int) (forward backward : Nat) :
    Option ExpandResult := do
  let min_ip ← listMin group
  let max_ip ← listMax group
  let forward_ips :=
    (padLoop group forward (-1) (3 * forward + 3) (min_ip - 1) []).reverse
  let backward_ips :=
    padLoop group backward 1 (3 * backward + 3) (max_ip + 1) []
  let middle_ips :=
    (intRange (min_ip + 1) max_ip).filter
      (fun ip => !(group.contains ip) && is_excluded (int_to_ip ip) == some false)
  let all_ips_int := forward_ips ++ group ++ middle_ips ++ backward_ips
  let min_all ← listMin all_ips_int
  let max_all ← listMax all_ips_int
  let span := max_all - min_all
  let prefix_len : Int := 32 - (pyBitLength span.toNat : Int)
  let prefix_len := max 24 (min 32 prefix_len)
  let cidr := cidrTextOf min_all prefix_len.toNat
  pure { cidr := cidr
         ips_int := all_ips_int
         start_ip := int_to_ip min_all
         end_ip := int_to_ip max_all
         original_count := group.length
         expanded_count := all_ips_int.length }

/-- `cidr_to_ips` (cip.py line 147): parse `network/prefix`, mask the
network address, and enumerate the addresses strictly between network and
broadcast, dropping excluded ones.  `none` models the uncaught exceptions:
an unpack of more than two `/`-separated parts, an unparsable prefix or
network, and the negative shift raised when the prefix exceeds 32. -/
def cidr_to_ips (cidr : String) : Option (List String) :=
  if '/' ∈ cidr.data then
    match splitOnChar '/' cidr.data with
    | [network, plenStr] => do
      let prefix_len ← parseInt plenStr
      let clean_network := removeCip network
      let network_int ← ip_to_int (String.mk clean_network)
      if 32 - prefix_len < 0 then none
      else
        let mask := (0xFFFFFFFF * 2 ^ (32 - prefix_len).toNat) % (2 ^ 32 : Int)
        let host_bits := (32 - prefix_len).toNat
        let num_hosts : Int := 2 ^ host_bits
        let network_addr := Int.land network_int mask
        let broadcast_addr := network_addr + num_hosts - 1
        some (((intRange (network_addr + 1) broadcast_addr).map int_to_ip).filter
          (fun s => is_excluded s == some false))
    | _ => none
  else some [cidr]

/-- The network and broadcast integers that `cidr_to_ips` computes for a
CIDR string, exposed for specification purposes (same parsing and masking
as `cidr_to_ips`). -/
def cidrNetBroadcast (cidr : String) : Option (Int × Int) :=
  match splitOnChar '/' cidr.data with
  | [network, plenStr] => do
    let prefix_len ← parseInt plenStr
    let network_int ← ip_to_int (String.mk (removeCip network))
    if 32 - prefix_len < 0 then none
    else
      let mask := (0xFFFFFFFF * 2 ^ (32 - prefix_len).toNat) % (2 ^ 32 : Int)
      let network_addr := Int.land network_int mask
      some (network_addr, network_addr + 2 ^ (32 - prefix_len).toNat - 1)
  | _ => none

/-- The `/24` bucket key of an address integer: the first three fields of
its dotted-quad text joined with dots (cip.py line 215). -/
def prefixKeyOf (ip_int : Int) : String :=
  String.mk (joinDots ((splitOnChar '.' (int_to_ip ip_int).data).take 3))

/-- One `subnet_groups[prefix].append(ip_int)` step on an insertion-ordered
association list (cip.py line 216, `defaultdict(list)`). -/
def addToBuckets : List (String × List Int) → String → Int → List (String × List Int)
  | [], k, v => [(k, [v])]
  | (k', vs) :: rest, k, v =>
    if k' = k then (k', vs ++ [v]) :: rest
    else (k', vs) :: addToBuckets rest k v

/-- The `subnet_groups` dictionary built by iterating the sorted address
list (cip.py lines 212-216). -/
def partitionBuckets (l : List Int) : List (String × List Int) :=
  l.foldl (fun bs i => addToBuckets bs (prefixKeyOf i) i) []

/-- The per-bucket work of `run` (cip.py lines 225-244): cluster with
`max_gap = 8`, expand every cluster with the default padding 10/10,
materialize each derived CIDR, and render the singles.  Returns
(materialized addresses, CIDR texts, single addresses) for the bucket. -/
def processBucket (ips : List Int) : Option (List String × List String × List String) := do
  let gs := group_by_gap ips 8
  let results ← pyMapM (fun g => expand_group_properly g 10 10) gs.1
  let cidrs := results.map (fun r => r.cidr)
  let cidrIps ← pyMapM cidr_to_ips cidrs
  pure (cidrIps.flatten, cidrs, gs.2.map int_to_ip)

/-- `list(set(xs))` modulo iteration order: first-occurrence
deduplication (see the header note on why the order is immaterial). -/
def pyDedup (l : List String) : List String :=
  l.foldl (fun acc x => if x ∈ acc then acc else acc ++ [x]) []

/-- Sort key of the final address sort (cip.py line 250). -/
def addrKeyed (l : List String) : Option (List (String × Int)) :=
  pyMapM (fun ip => do
    let k ← ip_to_int ip
    pure (ip, k)) l

/-- Sort key of the final CIDR sort (cip.py line 251): the integer value of
the text before the slash. -/
def cidrKeyOf (c : String) : Option Int :=
  ip_to_int (String.mk ((splitOnChar '/' c.data).headD []))

/-- Keyed CIDR list for the final sort. -/
def cidrKeyed (l : List String) : Option (List (String × Int)) :=
  pyMapM (fun c => do
    let k ← cidrKeyOf c
    pure (c, k)) l

/-- The tail of `run` after the input has been parsed and sorted
(cip.py lines 211-255): bucket by `/24`, process each bucket, merge all
materialized and single addresses, deduplicate, and sort both outputs. -/
def assemble (ips_int_sorted : List Int) : Option (List String × List String) := do
  let buckets := partitionBuckets ips_int_sorted
  let results ← pyMapM (fun b => processBucket b.2) buckets
  let all_cidr_ips := (results.map (fun r => r.1)).flatten
  let cidr_list := (results.map (fun r => r.2.1)).flatten
  let all_single_ips := (results.map (fun r => r.2.2)).flatten
  let all_ips := pyDedup (all_cidr_ips ++ all_single_ips)
  let keyed ← addrKeyed all_ips
  let all_ips_sorted := (List.insertionSort (fun a b => a.2 ≤ b.2) keyed).map (fun p => p.1)
  let ckeyed ← cidrKeyed cidr_list
  let cidr_list_sorted := (List.insertionSort (fun a b => a.2 ≤ b.2) ckeyed).map (fun p => p.1)
  pure (all_ips_sorted, cidr_list_sorted)

/-- `run` (cip.py line 180): clean, optionally drop private addresses,
drop excluded addresses, parse, sort, and hand the sorted integers to
`assemble` (the bucket/cluster/expand/materialize/merge tail).  `none`
models an uncaught exception escaping `run`. -/
def run (input_ips : List String) (filter_private : Bool) :
    Option (List String × List String) := do
  let cleaned_ips := input_ips.map pyReplaceCip
  let cleaned_ips2 ← if filter_private then filter_private_ips cleaned_ips else pure cleaned_ips
  let valid_ips ← pyFilterM keepNotExcluded cleaned_ips2
  if valid_ips = [] then pure ([], [])
  else do
    let ips_int ← pyMapM ip_to_int valid_ips
    assemble (List.insertionSort (fun a b => a ≤ b) ips_int)

/-- The private-range condition as a pure function of the first two octet
values, mirroring the check chain of `is_private_ip`. -/
def privPred (o0 o1 : Int) : Bool :=
  if o0 = 10 then true
  else if o0 = 172 then decide (16 ≤ o1 ∧ o1 ≤ 31)
  else if o0 = 192 then o1 == 168
  else if o0 = 127 then true
  else if o0 = 169 then o1 == 254
  else if o0 = 100 then decide (64 ≤ o1 ∧ o1 ≤ 127)
  else false

/-- One well-formed dotted-quad field: nonempty, all decimal digits, value
below 256. -/
def okField (f : List Char) : Bool :=
  !(f.isEmpty) && f.all Char.isDigit && ((parseDigits f).getD 256 < 256)

/-- A well-formed address token: exactly four dot-separated fields, each a
nonempty digit string with value in [0, 255].  (Leading zeros are allowed,
as Python `int` accepts them.) -/
def wellFormedIp (s : String) : Bool :=
  match splitOnChar '.' s.data with
  | [f0, f1, f2, f3] => okField f0 && okField f1 && okField f2 && okField f3
  | _ => false

/-- The 32-bit value of four in-range octets. -/
def mkIpVal (t0 t1 t2 t3 : Nat) : Nat :=
  t0 * 2 ^ 24 + t1 * 2 ^ 16 + t2 * 2 ^ 8 + t3

/-- Specification-side clustering (§4.3 of the spec): the maximal runs of
the input in which each element is within `mg` of the element before it
(the "last element added to the current group"). -/
def gapRuns (mg : Int) : List Int → List (List Int)
  | [] => []
  | [x] => [[x]]
  | x :: y :: rest =>
    match gapRuns mg (y :: rest) with
    | [] => [[x]]
    | r :: rs => if y - x ≤ mg then (x :: r) :: rs else [x] :: r :: rs

/-- Specification-side contract of the gap clusterer: the runs of size at
least two are the Clusters, the single-element runs are the Singletons,
both in input order. -/
def clusterSpec (sorted_addrs : List Int) (max_gap : Int) : List (List Int) × List Int :=
  ((gapRuns max_gap sorted_addrs).filter (fun g => decide (2 ≤ g.length)),
    ((gapRuns max_gap sorted_addrs).filter (fun g => g.length = 1)).flatten)

/-- The rendered octet of `int_to_ip`: decimal digits of the masked byte. -/
def octChars (n : Int) (k : Nat) : List Char :=
  (Nat.repr (pyOctet n k).toNat).data

/-- `run_simple` (cip.py line 258). -/
def run_simple (input_ips : List String) (filter_private : Bool) : Option (List String) := do
  let r ← run input_ips filter_private
  pure r.1
/-! ### Basic facts about the character-level helpers -/

theorem string_mk_data (s : String) : String.mk s.data = s := rfl

theorem splitOnChar_ne_nil (sep : Char) : ∀ cs : List Char, splitOnChar sep cs ≠ []
  | [] => by simp [splitOnChar]
  | c :: rest => by
    simp only [splitOnChar]
    split
    · simp
    · split <;> simp

theorem splitOnChar_of_not_mem {sep : Char} : ∀ {cs : List Char}, sep ∉ cs →
    splitOnChar sep cs = [cs]
  | [], _ => rfl
  | c :: rest, h => by
    have hc : c ≠ sep := fun hh => h (hh ▸ List.mem_cons_self c rest)
    have hr : sep ∉ rest := fun hh => h (List.mem_cons_of_mem c hh)
    simp only [splitOnChar, if_neg hc, splitOnChar_of_not_mem hr]

theorem splitOnChar_append {sep : Char} : ∀ {a : List Char} (b : List Char), sep ∉ a →
    splitOnChar sep (a ++ sep :: b) = a :: splitOnChar sep b
  | [], b, _ => by simp [splitOnChar]
  | c :: rest, b, h => by
    have hc : c ≠ sep := fun hh => h (hh ▸ List.mem_cons_self c rest)
    have hr : sep ∉ rest := fun hh => h (List.mem_cons_of_mem c hh)
    simp only [List.cons_append, splitOnChar, if_neg hc, List.append_eq]
    rw [splitOnChar_append b hr]

theorem joinDots_splitOnChar : ∀ cs : List Char, joinDots (splitOnChar '.' cs) = cs := by
  intro cs
  induction cs with
  | nil => rfl
  | cons c rest ih =>
    simp only [splitOnChar]
    split
    · rename_i hc
      subst hc
      rcases hsplit : splitOnChar '.' rest with _ | ⟨h1, t1⟩
      · exact absurd hsplit (splitOnChar_ne_nil _ rest)
      · rw [hsplit] at ih
        simpa [joinDots] using ih
    · rename_i hc
      rcases hsplit : splitOnChar '.' rest with _ | ⟨h1, t1⟩
      · exact absurd hsplit (splitOnChar_ne_nil _ rest)
      · rw [hsplit] at ih
        cases t1 <;> simpa [joinDots] using congrArg (c :: ·) ih

theorem mem_joinDots {c : Char} : ∀ {parts : List (List Char)}, c ∈ joinDots parts →
    c = '.' ∨ ∃ part ∈ parts, c ∈ part
  | [], h => by simp [joinDots] at h
  | [p], h => by
    right
    exact ⟨p, by simp, by simpa [joinDots] using h⟩
  | p :: q :: rest, h => by
    rw [show joinDots (p :: q :: rest) = p ++ '.' :: joinDots (q :: rest) from rfl] at h
    rcases List.mem_append.mp h with hp | hq
    · exact Or.inr ⟨p, by simp, hp⟩
    · rcases List.mem_cons.mp hq with hdot | hrest
      · exact Or.inl hdot
      · rcases mem_joinDots hrest with hdot | ⟨part, hpart, hcp⟩
        · exact Or.inl hdot
        · exact Or.inr ⟨part, List.mem_cons_of_mem _ hpart, hcp⟩

/-- Every character of a string is either a dot or belongs to one of its
dot-separated fields. -/
theorem mem_of_splitOnChar_dot {cs : List Char} {c : Char} (hc : c ∈ cs) :
    c = '.' ∨ ∃ part ∈ splitOnChar '.' cs, c ∈ part :=
  mem_joinDots (by rwa [joinDots_splitOnChar cs])

theorem removeCip_of_not_mem : ∀ cs : List Char, 'c' ∉ cs → removeCip cs = cs := by
  intro cs
  induction cs with
  | nil => intro _; rfl
  | cons c rest ih =>
    intro h
    have hc : c ≠ 'c' := fun hh => h (hh ▸ List.mem_cons_self c rest)
    have hr : 'c' ∉ rest := fun hh => h (List.mem_cons_of_mem c hh)
    rw [removeCip, ih hr]
    intro rest1 hcc
    exact absurd hcc hc
/-! ### Decimal rendering and parsing of octets -/

set_option maxRecDepth 40000 in
/-- Rendering a number below 256 and parsing it back with Python `int`
round-trips, and the rendering consists of decimal digits only. -/
theorem repr_parse_lt256 : ∀ n : Nat, n < 256 →
    parseInt (Nat.repr n).data = some (n : Int) ∧ (Nat.repr n).data.all Char.isDigit = true := by
  decide

theorem not_mem_of_all_isDigit {cs : List Char} (h : cs.all Char.isDigit = true)
    {c : Char} (hc : c.isDigit = false) : c ∉ cs := by
  intro hmem
  have := (List.all_eq_true.mp h) c hmem
  rw [hc] at this
  cases this

theorem dot_not_isDigit : ('.' : Char).isDigit = false := by decide

theorem slash_not_isDigit : ('/' : Char).isDigit = false := by decide

theorem c_not_isDigit : ('c' : Char).isDigit = false := by decide

/-- `parseInt` on a list that does not start with a minus sign is
`parseDigits` (it can only be the fall-through branch of the match). -/
theorem parseInt_of_head_ne_minus : ∀ {cs : List Char}, (∀ r, cs ≠ '-' :: r) →
    parseInt cs = (parseDigits cs).map (fun n => (n : Int))
  | [], _ => rfl
  | c :: rest, h => by
    rw [parseInt]
    intro r hcr
    exact h r (by rw [hcr])

theorem parseInt_of_all_isDigit {cs : List Char} (h : cs.all Char.isDigit = true) :
    parseInt cs = (parseDigits cs).map (fun n => (n : Int)) := by
  apply parseInt_of_head_ne_minus
  intro r hr
  subst hr
  have := (List.all_eq_true.mp h) '-' (List.mem_cons_self _ _)
  cases this

/-! ### Structure of `int_to_ip` and the parse round trip -/

theorem pyOctet_nonneg (n : Int) (k : Nat) : 0 ≤ pyOctet n k :=
  Int.emod_nonneg _ (by norm_num)

theorem pyOctet_lt (n : Int) (k : Nat) : pyOctet n k < 256 :=
  Int.emod_lt_of_pos _ (by norm_num)

theorem pyOctet_toNat_lt (n : Int) (k : Nat) : (pyOctet n k).toNat < 256 := by
  have h1 := pyOctet_nonneg n k
  have h2 := pyOctet_lt n k
  omega

theorem pyOctet_toNat_cast (n : Int) (k : Nat) : ((pyOctet n k).toNat : Int) = pyOctet n k :=
  Int.toNat_of_nonneg (pyOctet_nonneg n k)


theorem octChars_all_isDigit (n : Int) (k : Nat) : (octChars n k).all Char.isDigit = true :=
  (repr_parse_lt256 _ (pyOctet_toNat_lt n k)).2

theorem parseInt_octChars (n : Int) (k : Nat) :
    parseInt (octChars n k) = some (pyOctet n k) := by
  rw [octChars, (repr_parse_lt256 _ (pyOctet_toNat_lt n k)).1, pyOctet_toNat_cast]

theorem int_to_ip_data (n : Int) :
    (int_to_ip n).data =
      octChars n 24 ++ '.' :: octChars n 16 ++ '.' :: octChars n 8 ++ '.' :: octChars n 0 := rfl

theorem dot_not_mem_octChars (n : Int) (k : Nat) : '.' ∉ octChars n k :=
  not_mem_of_all_isDigit (octChars_all_isDigit n k) dot_not_isDigit

theorem splitOnChar_int_to_ip (n : Int) :
    splitOnChar '.' (int_to_ip n).data =
      [octChars n 24, octChars n 16, octChars n 8, octChars n 0] := by
  rw [int_to_ip_data]
  simp only [List.append_assoc, List.cons_append]
  rw [splitOnChar_append _ (dot_not_mem_octChars n 24),
    splitOnChar_append _ (dot_not_mem_octChars n 16),
    splitOnChar_append _ (dot_not_mem_octChars n 8),
    splitOnChar_of_not_mem (dot_not_mem_octChars n 0)]

theorem c_not_mem_int_to_ip (n : Int) : 'c' ∉ (int_to_ip n).data := by
  intro hmem
  rcases mem_of_splitOnChar_dot hmem with hdot | ⟨part, hpart, hcp⟩
  · cases hdot
  · rw [splitOnChar_int_to_ip] at hpart
    simp only [List.mem_cons, List.not_mem_nil, or_false] at hpart
    rcases hpart with h | h | h | h <;>
      exact absurd hcp (h ▸ not_mem_of_all_isDigit (octChars_all_isDigit n _) c_not_isDigit)

theorem removeCip_int_to_ip (n : Int) : removeCip (int_to_ip n).data = (int_to_ip n).data :=
  removeCip_of_not_mem _ (c_not_mem_int_to_ip n)

theorem int_lor_ofNat (m n : Nat) : Int.lor (m : Int) (n : Int) = ((m ||| n : Nat) : Int) := rfl

theorem lor_mul_pow_add {a b k : Nat} (h : b < 2 ^ k) : (a * 2 ^ k) ||| b = a * 2 ^ k + b := by
  apply Nat.eq_of_testBit_eq
  intro i
  rw [Nat.testBit_lor]
  have hzero : (0 : Nat) < 2 ^ k := Nat.pos_pow_of_pos k (by norm_num)
  have h1 : (a * 2 ^ k + b).testBit i = if i < k then b.testBit i else a.testBit (i - k) := by
    rw [show a * 2 ^ k + b = 2 ^ k * a + b by ring]
    exact Nat.testBit_mul_pow_two_add a h i
  have h2 : (a * 2 ^ k).testBit i = if i < k then false else a.testBit (i - k) := by
    rw [show a * 2 ^ k = 2 ^ k * a + 0 by ring, Nat.testBit_mul_pow_two_add a hzero i]
    simp
  rw [h1, h2]
  rcases Nat.lt_or_ge i k with hik | hik
  · simp [hik]
  · have hb : b.testBit i = false :=
      Nat.testBit_lt_two_pow (lt_of_lt_of_le h (Nat.pow_le_pow_right (by norm_num) hik))
    simp [Nat.not_lt.mpr hik, hb]

/-- The shift-and-or combination in `ip_to_int`, evaluated for in-range
octets: it is plain positional arithmetic. -/
theorem lorQuad (t0 t1 t2 t3 : Nat) (h1 : t1 < 256) (h2 : t2 < 256) (h3 : t3 < 256) :
    Int.lor (Int.lor (Int.lor ((t0 : Int) * 2 ^ 24) ((t1 : Int) * 2 ^ 16)) ((t2 : Int) * 2 ^ 8))
        (t3 : Int)
      = ((t0 * 2 ^ 24 + t1 * 2 ^ 16 + t2 * 2 ^ 8 + t3 : Nat) : Int) := by
  have e0 : ((t0 : Int) * 2 ^ 24) = ((t0 * 2 ^ 24 : Nat) : Int) := by push_cast; ring
  have e1 : ((t1 : Int) * 2 ^ 16) = ((t1 * 2 ^ 16 : Nat) : Int) := by push_cast; ring
  have e2 : ((t2 : Int) * 2 ^ 8) = ((t2 * 2 ^ 8 : Nat) : Int) := by push_cast; ring
  rw [e0, e1, e2, int_lor_ofNat]
  rw [show t0 * 2 ^ 24 ||| t1 * 2 ^ 16 = t0 * 2 ^ 24 + t1 * 2 ^ 16 from
    lor_mul_pow_add (k := 24) (by nlinarith)]
  rw [int_lor_ofNat]
  rw [show (t0 * 2 ^ 24 + t1 * 2 ^ 16 : Nat) = (t0 * 2 ^ 8 + t1) * 2 ^ 16 by ring]
  rw [show (t0 * 2 ^ 8 + t1) * 2 ^ 16 ||| t2 * 2 ^ 8 = (t0 * 2 ^ 8 + t1) * 2 ^ 16 + t2 * 2 ^ 8 from
    lor_mul_pow_add (k := 16) (by nlinarith)]
  rw [int_lor_ofNat]
  rw [show ((t0 * 2 ^ 8 + t1) * 2 ^ 16 + t2 * 2 ^ 8 : Nat)
      = ((t0 * 2 ^ 8 + t1) * 2 ^ 8 + t2) * 2 ^ 8 by ring]
  rw [show ((t0 * 2 ^ 8 + t1) * 2 ^ 8 + t2) * 2 ^ 8 ||| t3
      = ((t0 * 2 ^ 8 + t1) * 2 ^ 8 + t2) * 2 ^ 8 + t3 from lor_mul_pow_add (k := 8) h3]

/-- Parsing the dotted quad of `n` recovers `n` modulo `2 ^ 32`
(`ip_to_int(int_to_ip(n)) == n % 2**32` in Python terms). -/
theorem ip_to_int_int_to_ip (n : Int) : ip_to_int (int_to_ip n) = some (n % 2 ^ 32) := by
  rw [ip_to_int]
  rw [show (int_to_ip n).data = (String.mk (int_to_ip n).data).data from rfl]
  rw [string_mk_data, removeCip_int_to_ip, splitOnChar_int_to_ip]
  have hmap : pyMapM parseInt [octChars n 24, octChars n 16, octChars n 8, octChars n 0]
      = some [pyOctet n 24, pyOctet n 16, pyOctet n 8, pyOctet n 0] := by
    simp [pyMapM, parseInt_octChars]
  rw [hmap]
  simp only [Option.bind_eq_bind, Option.some_bind, List.getElem?_cons_zero,
    List.getElem?_cons_succ]
  have hq := lorQuad (pyOctet n 24).toNat (pyOctet n 16).toNat (pyOctet n 8).toNat
    (pyOctet n 0).toNat (pyOctet_toNat_lt n 16) (pyOctet_toNat_lt n 8) (pyOctet_toNat_lt n 0)
  rw [pyOctet_toNat_cast, pyOctet_toNat_cast, pyOctet_toNat_cast, pyOctet_toNat_cast] at hq
  rw [hq]
  congr 1
  have h24 := pyOctet_toNat_cast n 24
  have h16 := pyOctet_toNat_cast n 16
  have h8 := pyOctet_toNat_cast n 8
  have h0 := pyOctet_toNat_cast n 0
  push_cast
  rw [h24, h16, h8, h0]
  unfold pyOctet
  omega
/-! ### Canonical strings: exclusion and privacy checks -/

theorem is_excluded_int_to_ip (n : Int) :
    is_excluded (int_to_ip n) = some (pyOctet n 0 == 0 || pyOctet n 0 == 255) := by
  rw [is_excluded, splitOnChar_int_to_ip]
  simp [parseInt_octChars]

theorem is_private_ip_int_to_ip (n : Int) :
    is_private_ip (int_to_ip n) = some (privPred (pyOctet n 24) (pyOctet n 16)) := by
  rw [is_private_ip]
  rw [show (int_to_ip n).data = (String.mk (int_to_ip n).data).data from rfl]
  rw [string_mk_data, removeCip_int_to_ip, splitOnChar_int_to_ip]
  have hmap : pyMapM parseInt [octChars n 24, octChars n 16, octChars n 8, octChars n 0]
      = some [pyOctet n 24, pyOctet n 16, pyOctet n 8, pyOctet n 0] := by
    simp [pyMapM, parseInt_octChars]
  rw [hmap]
  simp only [Option.bind_eq_bind, Option.some_bind, List.getElem?_cons_zero,
    List.getElem?_cons_succ]
  unfold privPred
  split_ifs <;> rfl

/-! ### Well-formed tokens -/

theorem okField_elim {f : List Char} (h : okField f = true) :
    ∃ t : Nat, t < 256 ∧ parseDigits f = some t ∧ parseInt f = some (t : Int) ∧
      f.all Char.isDigit = true := by
  rw [okField] at h
  simp only [Bool.and_eq_true, decide_eq_true_eq] at h
  obtain ⟨⟨hne, hdig⟩, hval⟩ := h
  have hne' : f ≠ [] := by
    cases f
    · simp at hne
    · simp
  have hpd : parseDigits f = some (f.foldl (fun a c => 10 * a + (c.toNat - 48)) 0) := by
    rw [parseDigits, if_pos ⟨hne', hdig⟩]
  refine ⟨_, ?_, hpd, ?_, hdig⟩
  · rw [hpd] at hval
    simpa using hval
  · rw [parseInt_of_all_isDigit hdig, hpd]
    rfl

theorem wellFormedIp_elim {s : String} (h : wellFormedIp s = true) :
    ∃ t0 t1 t2 t3 : Nat, t0 < 256 ∧ t1 < 256 ∧ t2 < 256 ∧ t3 < 256 ∧
      ip_to_int s = some ((mkIpVal t0 t1 t2 t3 : Nat) : Int) ∧
      is_excluded s = some (((t3 : Int) == 0) || ((t3 : Int) == 255)) ∧
      is_private_ip s = some (privPred (t0 : Int) (t1 : Int)) ∧
      removeCip s.data = s.data := by
  rw [wellFormedIp] at h
  rcases hsplit : splitOnChar '.' s.data with _ | ⟨f0, rest⟩
  · rw [hsplit] at h; cases h
  rcases rest with _ | ⟨f1, rest⟩
  · rw [hsplit] at h; cases h
  rcases rest with _ | ⟨f2, rest⟩
  · rw [hsplit] at h; cases h
  rcases rest with _ | ⟨f3, rest⟩
  · rw [hsplit] at h; cases h
  rcases rest with _ | ⟨f4, rest⟩
  case cons.cons.cons.cons.cons => rw [hsplit] at h; cases h
  rw [hsplit] at h
  simp only [Bool.and_eq_true] at h
  obtain ⟨⟨⟨h0, h1⟩, h2⟩, h3⟩ := h
  obtain ⟨t0, hb0, hpd0, hpi0, hdig0⟩ := okField_elim h0
  obtain ⟨t1, hb1, hpd1, hpi1, hdig1⟩ := okField_elim h1
  obtain ⟨t2, hb2, hpd2, hpi2, hdig2⟩ := okField_elim h2
  obtain ⟨t3, hb3, hpd3, hpi3, hdig3⟩ := okField_elim h3
  have hnoc : 'c' ∉ s.data := by
    intro hmem
    rcases mem_of_splitOnChar_dot hmem with hdot | ⟨part, hpart, hcp⟩
    · cases hdot
    · rw [hsplit] at hpart
      simp only [List.mem_cons, List.not_mem_nil, or_false] at hpart
      rcases hpart with hh | hh | hh | hh <;>
        exact absurd hcp (hh ▸ not_mem_of_all_isDigit (by assumption) c_not_isDigit)
  have hclean : removeCip s.data = s.data := removeCip_of_not_mem _ hnoc
  refine ⟨t0, t1, t2, t3, hb0, hb1, hb2, hb3, ?_, ?_, ?_, hclean⟩
  · rw [ip_to_int]
    rw [hclean, hsplit]
    have hmap : pyMapM parseInt [f0, f1, f2, f3]
        = some [(t0 : Int), (t1 : Int), (t2 : Int), (t3 : Int)] := by
      simp [pyMapM, hpi0, hpi1, hpi2, hpi3]
    rw [hmap]
    simp only [Option.bind_eq_bind, Option.some_bind, List.getElem?_cons_zero,
      List.getElem?_cons_succ]
    rw [lorQuad t0 t1 t2 t3 hb1 hb2 hb3]
    rfl
  · rw [is_excluded, hsplit]
    simp [hpi3]
  · rw [is_private_ip]
    rw [hclean, hsplit]
    have hmap : pyMapM parseInt [f0, f1, f2, f3]
        = some [(t0 : Int), (t1 : Int), (t2 : Int), (t3 : Int)] := by
      simp [pyMapM, hpi0, hpi1, hpi2, hpi3]
    rw [hmap]
    simp only [Option.bind_eq_bind, Option.some_bind, List.getElem?_cons_zero,
      List.getElem?_cons_succ]
    unfold privPred
    split_ifs <;> rfl

theorem pyOctet_mkIpVal_24 {t0 t1 t2 t3 : Nat} (h0 : t0 < 256) (h1 : t1 < 256)
    (h2 : t2 < 256) (h3 : t3 < 256) :
    pyOctet ((mkIpVal t0 t1 t2 t3 : Nat) : Int) 24 = (t0 : Int) := by
  unfold pyOctet mkIpVal
  push_cast
  omega

theorem pyOctet_mkIpVal_16 {t0 t1 t2 t3 : Nat} (h0 : t0 < 256) (h1 : t1 < 256)
    (h2 : t2 < 256) (h3 : t3 < 256) :
    pyOctet ((mkIpVal t0 t1 t2 t3 : Nat) : Int) 16 = (t1 : Int) := by
  unfold pyOctet mkIpVal
  push_cast
  omega

theorem pyOctet_mkIpVal_8 {t0 t1 t2 t3 : Nat} (h0 : t0 < 256) (h1 : t1 < 256)
    (h2 : t2 < 256) (h3 : t3 < 256) :
    pyOctet ((mkIpVal t0 t1 t2 t3 : Nat) : Int) 8 = (t2 : Int) := by
  unfold pyOctet mkIpVal
  push_cast
  omega

theorem pyOctet_mkIpVal_0 {t0 t1 t2 t3 : Nat} (h0 : t0 < 256) (h1 : t1 < 256)
    (h2 : t2 < 256) (h3 : t3 < 256) :
    pyOctet ((mkIpVal t0 t1 t2 t3 : Nat) : Int) 0 = (t3 : Int) := by
  unfold pyOctet mkIpVal
  push_cast
  omega

theorem mkIpVal_lt {t0 t1 t2 t3 : Nat} (h0 : t0 < 256) (h1 : t1 < 256)
    (h2 : t2 < 256) (h3 : t3 < 256) : mkIpVal t0 t1 t2 t3 < 2 ^ 32 := by
  unfold mkIpVal
  omega

/-! ### Characterizations of the monadic comprehensions -/

theorem pyMapM_forall₂ {f : α → Option β} : ∀ {l : List α} {r : List β},
    pyMapM f l = some r ↔ List.Forall₂ (fun a b => f a = some b) l r := by
  intro l
  induction l with
  | nil =>
    intro r
    constructor
    · intro h
      cases h
      exact List.Forall₂.nil
    · intro h
      cases h
      rfl
  | cons x xs ih =>
    intro r
    constructor
    · intro h
      rw [pyMapM] at h
      rcases hx : f x with _ | y
      · rw [hx] at h; cases h
      rw [hx] at h
      rcases hrest : pyMapM f xs with _ | rest
      · rw [hrest] at h; cases h
      rw [hrest] at h
      simp only [Option.bind_eq_bind, Option.some_bind, Option.pure_def, Option.some.injEq] at h
      subst h
      exact List.Forall₂.cons hx (ih.mp hrest)
    · intro h
      cases h with
      | cons hx hrest =>
        rw [pyMapM, hx, ih.mpr hrest]
        rfl

theorem pyMapM_eq_map {f : α → Option β} {g : α → β} : ∀ {l : List α},
    (∀ x ∈ l, f x = some (g x)) → pyMapM f l = some (l.map g) := by
  intro l
  induction l with
  | nil => intro _; rfl
  | cons x xs ih =>
    intro h
    rw [pyMapM, h x (List.mem_cons_self x xs), ih (fun y hy => h y (List.mem_cons_of_mem x hy))]
    rfl

theorem pyMapM_none_iff {f : α → Option β} : ∀ {l : List α},
    pyMapM f l = none ↔ ∃ x ∈ l, f x = none := by
  intro l
  induction l with
  | nil => simp [pyMapM]
  | cons x xs ih =>
    rw [pyMapM]
    rcases hx : f x with _ | y
    · simp only [Option.bind_eq_bind, Option.none_bind, true_iff]
      exact ⟨x, List.mem_cons_self x xs, hx⟩
    · simp only [Option.bind_eq_bind, Option.some_bind]
      rcases hrest : pyMapM f xs with _ | rest
      · rw [hrest] at ih
        simp only [true_iff] at ih
        simp only [Option.none_bind, true_iff]
        obtain ⟨z, hz, hfz⟩ := ih
        exact ⟨z, List.mem_cons_of_mem x hz, hfz⟩
      · rw [hrest] at ih
        simp only [Option.some_bind, Option.pure_def, reduceCtorEq, false_iff] at ih ⊢
        push_neg at ih ⊢
        intro z hz
        rcases List.mem_cons.mp hz with rfl | hzz
        · rw [hx]; exact Option.some_ne_none y
        · exact ih z hzz

theorem pyFilterM_eq_some_iff {p : α → Option Bool} : ∀ {l r : List α},
    pyFilterM p l = some r ↔
      (∀ x ∈ l, (p x).isSome) ∧ r = l.filter (fun x => (p x).getD false) := by
  intro l
  induction l with
  | nil =>
    intro r
    constructor
    · intro h
      cases h
      exact ⟨by simp, rfl⟩
    · rintro ⟨-, rfl⟩
      rfl
  | cons x xs ih =>
    intro r
    rw [pyFilterM]
    constructor
    · intro h
      rcases hx : p x with _ | b
      · rw [hx] at h; cases h
      rw [hx] at h
      rcases hrest : pyFilterM p xs with _ | rest
      · rw [hrest] at h; cases h
      rw [hrest] at h
      obtain ⟨hall, hr⟩ := ih.mp hrest
      simp only [Option.bind_eq_bind, Option.some_bind, Option.pure_def, Option.some.injEq] at h
      subst h
      constructor
      · intro z hz
        rcases List.mem_cons.mp hz with rfl | hzz
        · rw [hx]; rfl
        · exact hall z hzz
      · rw [List.filter_cons, hx, hr]
        cases b <;> simp
    · rintro ⟨hall, rfl⟩
      have hx : p x = some ((p x).getD false) := by
        have := hall x (List.mem_cons_self x xs)
        rcases hpx : p x with _ | b
        · rw [hpx] at this; cases this
        · rfl
      rw [hx, ih.mpr ⟨fun z hz => hall z (List.mem_cons_of_mem x hz), rfl⟩]
      simp only [Option.bind_eq_bind, Option.some_bind, Option.some.injEq]
      rw [List.filter_cons]
      cases hgd : (p x).getD false <;> simp [hgd]

/-! ### Deduplication and ranges -/

theorem pyDedup_aux_mem (y : String) : ∀ (l acc : List String),
    (y ∈ l.foldl (fun acc x => if x ∈ acc then acc else acc ++ [x]) acc ↔ y ∈ acc ∨ y ∈ l) := by
  intro l
  induction l with
  | nil => intro acc; simp
  | cons x xs ih =>
    intro acc
    rw [List.foldl_cons]
    by_cases hx : x ∈ acc
    · rw [if_pos hx, ih]
      constructor
      · rintro (h | h)
        · exact Or.inl h
        · exact Or.inr (List.mem_cons_of_mem x h)
      · rintro (h | h)
        · exact Or.inl h
        · rcases List.mem_cons.mp h with rfl | hh
          · exact Or.inl hx
          · exact Or.inr hh
    · rw [if_neg hx, ih]
      constructor
      · rintro (h | h)
        · rcases List.mem_append.mp h with hh | hh
          · exact Or.inl hh
          · simp only [List.mem_singleton] at hh
            exact Or.inr (hh ▸ List.mem_cons_self x xs)
        · exact Or.inr (List.mem_cons_of_mem x h)
      · rintro (h | h)
        · exact Or.inl (List.mem_append.mpr (Or.inl h))
        · rcases List.mem_cons.mp h with rfl | hh
          · exact Or.inl (List.mem_append.mpr (Or.inr (by simp)))
          · exact Or.inr hh

theorem mem_pyDedup {y : String} {l : List String} : y ∈ pyDedup l ↔ y ∈ l := by
  rw [pyDedup, pyDedup_aux_mem]
  simp

theorem pyDedup_aux_nodup : ∀ (l acc : List String), acc.Nodup →
    (l.foldl (fun acc x => if x ∈ acc then acc else acc ++ [x]) acc).Nodup := by
  intro l
  induction l with
  | nil => intro acc h; simpa using h
  | cons x xs ih =>
    intro acc h
    rw [List.foldl_cons]
    by_cases hx : x ∈ acc
    · rw [if_pos hx]; exact ih acc h
    · rw [if_neg hx]
      exact ih _ (by simp [List.nodup_append, h, hx])

theorem pyDedup_nodup (l : List String) : (pyDedup l).Nodup :=
  pyDedup_aux_nodup l [] List.nodup_nil

theorem mem_intRange {a b x : Int} : x ∈ intRange a b ↔ a ≤ x ∧ x < b := by
  rw [intRange]
  constructor
  · intro h
    obtain ⟨i, hi, hx⟩ := List.mem_map.mp h
    have hi2 := List.mem_range.mp hi
    rw [Int.lt_toNat] at hi2
    omega
  · intro hh
    apply List.mem_map.mpr
    refine ⟨(x - a).toNat, List.mem_range.mpr ?_, ?_⟩
    · omega
    · show a + ((x - a).toNat : Int) = x
      omega

/-! ### The fuel-based bit length -/

theorem bitLenAux_zero : ∀ fuel : Nat, bitLenAux fuel 0 = 0 := by
  intro fuel
  cases fuel <;> simp [bitLenAux]

theorem bitLenAux_bounds : ∀ (fuel n : Nat), n ≤ fuel →
    n < 2 ^ bitLenAux fuel n ∧ (n ≠ 0 → 2 ^ (bitLenAux fuel n - 1) ≤ n ∧ 1 ≤ bitLenAux fuel n) := by
  intro fuel
  induction fuel with
  | zero =>
    intro n hn
    interval_cases n
    simp [bitLenAux]
  | succ fuel ih =>
    intro n hn
    by_cases hz : n = 0
    · subst hz
      simp [bitLenAux]
    · rw [bitLenAux, if_neg hz]
      have hrec := ih (n / 2) (by omega)
      obtain ⟨hub, hlb⟩ := hrec
      constructor
      · have : n ≤ 2 * (n / 2) + 1 := by omega
        calc n ≤ 2 * (n / 2) + 1 := this
          _ < 2 * 2 ^ bitLenAux fuel (n / 2) := by omega
          _ = 2 ^ (bitLenAux fuel (n / 2) + 1) := by ring
      · intro _
        refine ⟨?_, by omega⟩
        by_cases hz2 : n / 2 = 0
        · rw [hz2, bitLenAux_zero]
          simpa using Nat.one_le_iff_ne_zero.mpr hz
        · obtain ⟨hl, hge1⟩ := hlb hz2
          have : 2 ^ (bitLenAux fuel (n / 2) - 1 + 1) ≤ 2 * (n / 2) := by
            rw [pow_succ]
            omega
          have he : bitLenAux fuel (n / 2) - 1 + 1 = bitLenAux fuel (n / 2) := by omega
          rw [he] at this
          simp only [Nat.add_sub_cancel]
          omega

/-- `pyBitLength` is Mathlib's `Nat.size`, i.e. Python's `int.bit_length`
for nonnegative arguments. -/
theorem pyBitLength_eq_size (n : Nat) : pyBitLength n = Nat.size n := by
  obtain ⟨hub, hlb⟩ := bitLenAux_bounds n n le_rfl
  rw [pyBitLength]
  by_cases hz : n = 0
  · subst hz; simp [bitLenAux, Nat.size_zero]
  · obtain ⟨hl, hge1⟩ := hlb hz
    apply le_antisymm
    · by_contra hlt
      push_neg at hlt
      have h1 : Nat.size n ≤ bitLenAux n n - 1 := by omega
      have := Nat.size_le.mp h1
      omega
    · exact Nat.size_le.mpr hub
/-! ### The gap clusterer: loop versus specification runs -/

theorem gapRuns_ne_nil_of_ne_nil {mg : Int} : ∀ {l : List Int}, l ≠ [] → gapRuns mg l ≠ []
  | [], h => absurd rfl h
  | [x], _ => by simp [gapRuns]
  | x :: y :: rest, _ => by
    rcases hr : gapRuns mg (y :: rest) with _ | ⟨r, rs⟩
    · exact absurd hr (gapRuns_ne_nil_of_ne_nil (by simp))
    · simp only [gapRuns, hr]
      split <;> simp

theorem ne_nil_of_mem_gapRuns {mg : Int} : ∀ {l : List Int} {g : List Int},
    g ∈ gapRuns mg l → g ≠ []
  | [], g, h => by simp [gapRuns] at h
  | [x], g, h => by
    simp only [gapRuns, List.mem_singleton] at h
    subst h
    simp
  | x :: y :: rest, g, h => by
    rcases hr : gapRuns mg (y :: rest) with _ | ⟨r, rs⟩
    · exact absurd hr (gapRuns_ne_nil_of_ne_nil (by simp))
    · simp only [gapRuns, hr] at h
      split at h
      · rcases List.mem_cons.mp h with rfl | hh
        · simp
        · exact @ne_nil_of_mem_gapRuns mg (y :: rest) _
            (by rw [hr]; exact List.mem_cons_of_mem r hh)
      · rcases List.mem_cons.mp h with rfl | hh
        · simp
        · exact @ne_nil_of_mem_gapRuns mg (y :: rest) _ (by rw [hr]; exact hh)

theorem gapRuns_flatten {mg : Int} : ∀ l : List Int, (gapRuns mg l).flatten = l
  | [] => rfl
  | [x] => rfl
  | x :: y :: rest => by
    rcases hr : gapRuns mg (y :: rest) with _ | ⟨r, rs⟩
    · exact absurd hr (gapRuns_ne_nil_of_ne_nil (by simp))
    · have hfl := @gapRuns_flatten mg (y :: rest)
      rw [hr] at hfl
      simp only [List.flatten_cons] at hfl
      simp only [gapRuns, hr]
      split
      · simp only [List.flatten_cons, List.cons_append, hfl]
      · simp only [List.flatten_cons, List.singleton_append, hfl]

/-- A chained run is a single cluster run. -/
theorem gapRuns_of_chain {mg : Int} : ∀ {l : List Int}, l ≠ [] →
    List.Chain' (fun a b => b - a ≤ mg) l → gapRuns mg l = [l]
  | [], h, _ => absurd rfl h
  | [x], _, _ => rfl
  | x :: y :: rest, _, hch => by
    have hxy : y - x ≤ mg := (List.chain'_cons.mp hch).1
    have hrec := @gapRuns_of_chain mg (y :: rest) (by simp) (List.chain'_cons.mp hch).2
    simp only [gapRuns, hrec]
    rw [if_pos hxy]

/-- A run boundary: if the gap from the last element of the chained block
`ca` to `ip` exceeds the threshold, the block is closed. -/
theorem gapRuns_split {mg : Int} : ∀ {ca : List Int} {cl ip : Int} {rest : List Int},
    ca ≠ [] → List.Chain' (fun a b => b - a ≤ mg) ca → ca.getLast? = some cl →
    ¬(ip - cl ≤ mg) →
    gapRuns mg (ca ++ ip :: rest) = ca :: gapRuns mg (ip :: rest)
  | [], _, _, _, h, _, _, _ => absurd rfl h
  | [x], cl, ip, rest, _, _, hlast, hgap => by
    have hx : x = cl := by simpa using hlast
    subst hx
    rcases hr : gapRuns mg (ip :: rest) with _ | ⟨r, rs⟩
    · exact absurd hr (gapRuns_ne_nil_of_ne_nil (by simp))
    · rw [List.singleton_append]
      simp only [gapRuns, hr]
      rw [if_neg hgap]
  | x :: y :: ca', cl, ip, rest, _, hch, hlast, hgap => by
    have hxy : y - x ≤ mg := (List.chain'_cons.mp hch).1
    have hlast' : (y :: ca').getLast? = some cl := by
      rw [← hlast, List.getLast?_cons_cons]
    have hrec := @gapRuns_split mg (y :: ca') cl ip rest
      (by simp) (List.chain'_cons.mp hch).2 hlast' hgap
    rw [show (y :: ca') ++ ip :: rest = y :: (ca' ++ ip :: rest) from rfl] at hrec
    rw [show (x :: y :: ca') ++ ip :: rest = x :: y :: (ca' ++ ip :: rest) from rfl]
    simp only [gapRuns, hrec]
    rw [if_pos hxy]


theorem gbgLoop_eq {mg : Int} : ∀ (rest : List Int) (groups : List (List Int))
    (singles : List Int) (curLast : Int) (curPrevRev : List Int),
    List.Chain' (fun a b => b - a ≤ mg) (curPrevRev.reverse ++ [curLast]) →
    gbgLoop mg groups singles curLast curPrevRev rest =
      (groups ++ (gapRuns mg ((curPrevRev.reverse ++ [curLast]) ++ rest)).filter
          (fun g => decide (2 ≤ g.length)),
        singles ++ ((gapRuns mg ((curPrevRev.reverse ++ [curLast]) ++ rest)).filter
          (fun g => g.length = 1)).flatten) := by
  intro rest
  induction rest with
  | nil =>
    intro groups singles curLast curPrevRev hch
    rw [gbgLoop, List.append_nil]
    rw [gapRuns_of_chain (by simp) hch]
    rcases curPrevRev with _ | ⟨p, ps⟩
    · simp [List.filter_cons]
    · have hlenp : 2 ≤ ((p :: ps).reverse ++ [curLast]).length := by simp
      have hlen1 : ((p :: ps).reverse ++ [curLast]).length ≠ 1 := by simp
      rw [if_neg (by simp)]
      simp [List.filter_cons, List.reverse_cons, decide_eq_true hlenp, decide_eq_false hlen1]
  | cons ip rest ih =>
    intro groups singles curLast curPrevRev hch
    rw [gbgLoop]
    by_cases hgap : ip - curLast ≤ mg
    · rw [if_pos hgap]
      have hch' : List.Chain' (fun a b => b - a ≤ mg)
          ((curLast :: curPrevRev).reverse ++ [ip]) := by
        rw [List.reverse_cons]
        apply List.Chain'.append hch (by simp)
        intro a ha b hb
        rw [List.getLast?_concat] at ha
        simp only [List.head?_cons, Option.mem_def, Option.some.injEq] at ha hb
        subst ha
        subst hb
        exact hgap
      have hrw := ih groups singles ip (curLast :: curPrevRev) hch'
      rw [hrw]
      have hre : (curLast :: curPrevRev).reverse ++ [ip] ++ rest
          = (curPrevRev.reverse ++ [curLast]) ++ ip :: rest := by
        rw [List.reverse_cons, List.append_assoc, List.append_assoc]
        simp
      rw [hre]
    · rw [if_neg hgap]
      have hlast : (curPrevRev.reverse ++ [curLast]).getLast? = some curLast :=
        List.getLast?_concat _
      have hsplit := @gapRuns_split mg (curPrevRev.reverse ++ [curLast]) curLast ip rest (by simp) hch hlast hgap
      rw [hsplit]
      rcases curPrevRev with _ | ⟨p, ps⟩
      · rw [if_pos rfl]
        have hrw := ih groups (singles ++ [curLast]) ip [] (by simp)
        rw [hrw]
        simp only [List.reverse_nil, List.nil_append]
        have hf1 : ([curLast] :: gapRuns mg (ip :: rest)).filter (fun g => decide (2 ≤ g.length))
            = (gapRuns mg (ip :: rest)).filter (fun g => decide (2 ≤ g.length)) := by
          simp [List.filter_cons]
        have hf2 : ([curLast] :: gapRuns mg (ip :: rest)).filter (fun g => g.length = 1)
            = [curLast] :: (gapRuns mg (ip :: rest)).filter (fun g => g.length = 1) := by
          simp [List.filter_cons]
        rw [hf1, hf2]
        simp
      · rw [if_neg (by simp)]
        have hrw := ih (groups ++ [(curLast :: p :: ps).reverse]) singles ip [] (by simp)
        rw [hrw]
        have hlenp : 2 ≤ ((p :: ps).reverse ++ [curLast]).length := by simp
        have hlen1 : ((p :: ps).reverse ++ [curLast]).length ≠ 1 := by simp
        have hf1 : (((p :: ps).reverse ++ [curLast]) :: gapRuns mg (ip :: rest)).filter
            (fun g => decide (2 ≤ g.length))
            = ((p :: ps).reverse ++ [curLast]) ::
              (gapRuns mg (ip :: rest)).filter (fun g => decide (2 ≤ g.length)) := by
          simp [List.filter_cons, decide_eq_true hlenp]
        have hf2 : (((p :: ps).reverse ++ [curLast]) :: gapRuns mg (ip :: rest)).filter
            (fun g => g.length = 1)
            = (gapRuns mg (ip :: rest)).filter (fun g => g.length = 1) := by
          simp [List.filter_cons, decide_eq_false hlen1]
        rw [hf1, hf2]
        simp [List.reverse_cons]

theorem group_by_gap_eq_clusterSpec (l : List Int) (mg : Int) :
    group_by_gap l mg = clusterSpec l mg := by
  rcases l with _ | ⟨x, rest⟩
  · rfl
  · rw [group_by_gap, clusterSpec]
    have := @gbgLoop_eq mg rest [] [] x [] (by simp)
    simpa using this

/-! ### Consequences for `group_by_gap` -/

theorem mem_groups_ne_nil {l : List Int} {mg : Int} {g : List Int}
    (h : g ∈ (group_by_gap l mg).1) : g ≠ [] := by
  rw [group_by_gap_eq_clusterSpec, clusterSpec] at h
  exact ne_nil_of_mem_gapRuns (List.mem_filter.mp h).1

theorem mem_groups_two_le {l : List Int} {mg : Int} {g : List Int}
    (h : g ∈ (group_by_gap l mg).1) : 2 ≤ g.length := by
  rw [group_by_gap_eq_clusterSpec, clusterSpec] at h
  simpa using (List.mem_filter.mp h).2

theorem mem_of_mem_groups {l : List Int} {mg : Int} {g : List Int} {x : Int}
    (h : g ∈ (group_by_gap l mg).1) (hx : x ∈ g) : x ∈ l := by
  rw [group_by_gap_eq_clusterSpec, clusterSpec] at h
  have hg := (List.mem_filter.mp h).1
  rw [← @gapRuns_flatten mg l]
  exact List.mem_flatten.mpr ⟨g, hg, hx⟩

theorem mem_of_mem_singles {l : List Int} {mg : Int} {x : Int}
    (h : x ∈ (group_by_gap l mg).2) : x ∈ l := by
  rw [group_by_gap_eq_clusterSpec, clusterSpec] at h
  obtain ⟨g, hg, hx⟩ := List.mem_flatten.mp h
  rw [← @gapRuns_flatten mg l]
  exact List.mem_flatten.mpr ⟨g, (List.mem_filter.mp hg).1, hx⟩

/-- If every consecutive gap exceeds the threshold, every run is a
singleton. -/
theorem gapRuns_of_big_gaps {mg : Int} : ∀ {l : List Int},
    List.Chain' (fun a b => mg < b - a) l → gapRuns mg l = l.map (fun x => [x])
  | [], _ => rfl
  | [x], _ => rfl
  | x :: y :: rest, hch => by
    have hxy : mg < y - x := (List.chain'_cons.mp hch).1
    have hrec := @gapRuns_of_big_gaps mg (y :: rest) (List.chain'_cons.mp hch).2
    simp only [gapRuns, hrec, List.map_cons]
    rw [if_neg (by omega)]

/-- Conversely, if every run is a singleton then every consecutive gap
exceeds the threshold. -/
theorem big_gaps_of_gapRuns_singletons {mg : Int} : ∀ {l : List Int},
    (∀ g ∈ gapRuns mg l, g.length = 1) → List.Chain' (fun a b => mg < b - a) l
  | [], _ => List.chain'_nil
  | [x], _ => List.chain'_singleton x
  | x :: y :: rest, h => by
    rcases hr : gapRuns mg (y :: rest) with _ | ⟨r, rs⟩
    · exact absurd hr (gapRuns_ne_nil_of_ne_nil (by simp))
    · by_cases hgap : y - x ≤ mg
      · exfalso
        have hx : (x :: r) ∈ gapRuns mg (x :: y :: rest) := by
          simp only [gapRuns, hr]
          rw [if_pos hgap]
          exact List.mem_cons_self _ _
        have hlen := h _ hx
        have hrne : r ≠ [] :=
          @ne_nil_of_mem_gapRuns mg (y :: rest) _ (by rw [hr]; exact List.mem_cons_self r rs)
        rcases r with _ | ⟨a, b⟩
        · exact hrne rfl
        · simp at hlen
      · apply List.chain'_cons.mpr
        refine ⟨by omega, ?_⟩
        apply @big_gaps_of_gapRuns_singletons mg
        intro g hg
        apply h
        simp only [gapRuns, hr]
        rw [if_neg hgap]
        rw [hr] at hg
        exact List.mem_cons_of_mem _ hg

/-- When the clusterer returns no groups, the input had all gaps above the
threshold and every element became a single, in order. -/
theorem group_by_gap_no_groups {l : List Int} {mg : Int}
    (h : (group_by_gap l mg).1 = []) :
    List.Chain' (fun a b => mg < b - a) l ∧ group_by_gap l mg = ([], l) := by
  rw [group_by_gap_eq_clusterSpec, clusterSpec] at h ⊢
  simp only at h
  have hsing : ∀ g ∈ gapRuns mg l, g.length = 1 := by
    intro g hg
    have hne := ne_nil_of_mem_gapRuns hg
    by_contra hlen
    have h2 : 2 ≤ g.length := by
      rcases g with _ | ⟨a, rest⟩
      · exact absurd rfl hne
      · rcases rest with _ | ⟨b, rest⟩
        · exact absurd rfl hlen
        · simp
    have : g ∈ (gapRuns mg l).filter (fun g => decide (2 ≤ g.length)) :=
      List.mem_filter.mpr ⟨hg, by simpa using h2⟩
    rw [h] at this
    cases this
  refine ⟨big_gaps_of_gapRuns_singletons hsing, ?_⟩
  rw [h]
  congr 1
  have : (gapRuns mg l).filter (fun g => g.length = 1) = gapRuns mg l := by
    apply List.filter_eq_self.mpr
    intro g hg
    simpa using hsing g hg
  rw [this, gapRuns_flatten]

theorem flatten_map_singleton : ∀ l : List Int, (l.map (fun x => [x])).flatten = l
  | [] => rfl
  | x :: xs => by simp [flatten_map_singleton xs]

/-- A list with all gaps above the threshold clusters to itself as
singles. -/
theorem group_by_gap_of_big_gaps {l : List Int} {mg : Int}
    (hch : List.Chain' (fun a b => mg < b - a) l) : group_by_gap l mg = ([], l) := by
  rw [group_by_gap_eq_clusterSpec, clusterSpec, gapRuns_of_big_gaps hch]
  have h1 : (l.map (fun x => [x])).filter (fun g => decide (2 ≤ g.length)) = [] := by
    rw [List.filter_map]
    have : ((fun g : List Int => decide (2 ≤ g.length)) ∘ fun x => [x]) = fun _ => false := by
      funext x
      simp
    rw [this, List.filter_false, List.map_nil]
  have h2 : (l.map (fun x => [x])).filter (fun g => g.length = 1) = l.map (fun x => [x]) := by
    rw [List.filter_map]
    have : ((fun g : List Int => decide (g.length = 1)) ∘ fun x => [x]) = fun _ => true := by
      funext x
      simp
    rw [this, List.filter_true]
  rw [h1, h2, flatten_map_singleton]

/-! ### The subnet partitioner -/

theorem addToBuckets_keys (bs : List (String × List Int)) (k : String) (v : Int) :
    (addToBuckets bs k v).map Prod.fst =
      if k ∈ bs.map Prod.fst then bs.map Prod.fst else bs.map Prod.fst ++ [k] := by
  induction bs with
  | nil => simp [addToBuckets]
  | cons p rest ih =>
    obtain ⟨k', vs⟩ := p
    rw [addToBuckets]
    by_cases hk : k' = k
    · subst hk
      simp
    · rw [if_neg hk]
      simp only [List.map_cons, ih]
      by_cases hmem : k ∈ rest.map Prod.fst
      · rw [if_pos hmem, if_pos (by simp [hmem])]
      · rw [if_neg hmem, if_neg (by simp [hmem, Ne.symm hk]), List.cons_append]

theorem addToBuckets_values {bs : List (String × List Int)} {processed : List Int} {v : Int}
    {k : String} (hkv : k = prefixKeyOf v)
    (hnd : (bs.map Prod.fst).Nodup)
    (hval : ∀ p ∈ bs, p.2 = processed.filter (fun i => prefixKeyOf i == p.1))
    (hnew : k ∉ bs.map Prod.fst → processed.filter (fun i => prefixKeyOf i == k) = []) :
    ∀ p ∈ addToBuckets bs k v,
      p.2 = (processed ++ [v]).filter (fun i => prefixKeyOf i == p.1) := by
  induction bs with
  | nil =>
    intro p hp
    simp only [addToBuckets, List.mem_singleton] at hp
    subst hp
    rw [List.filter_append, hnew (by simp)]
    simp [hkv]
  | cons q rest ih =>
    obtain ⟨k', vs⟩ := q
    intro p hp
    rw [addToBuckets] at hp
    by_cases hk : k' = k
    · subst hk
      rw [if_pos rfl] at hp
      rcases List.mem_cons.mp hp with rfl | hrest
      · have := hval (k', vs) (List.mem_cons_self _ _)
        simp only at this
        rw [List.filter_append, ← this]
        simp [hkv]
      · have := hval p (List.mem_cons_of_mem _ hrest)
        rw [List.filter_append, ← this]
        have hne : ¬(prefixKeyOf v == p.1) = true := by
          simp only [beq_iff_eq]
          intro heq
          have hk'mem : p.1 ∈ rest.map Prod.fst := List.mem_map.mpr ⟨p, hrest, rfl⟩
          rw [← hkv] at heq
          rw [← heq] at hk'mem
          simp only [List.map_cons, List.nodup_cons] at hnd
          exact hnd.1 hk'mem
        simp [hne]
    · rw [if_neg hk] at hp
      rcases List.mem_cons.mp hp with rfl | hrest
      · have := hval (k', vs) (List.mem_cons_self _ _)
        simp only at this
        rw [List.filter_append, ← this]
        have hne : ¬(prefixKeyOf v == k') = true := by
          simp only [beq_iff_eq]
          rw [← hkv]
          exact fun h => hk h.symm
        simp [hne]
      · have hnd' : (rest.map Prod.fst).Nodup := by
          simp only [List.map_cons, List.nodup_cons] at hnd
          exact hnd.2
        refine ih hnd' (fun q hq => hval q (List.mem_cons_of_mem _ hq)) ?_ p hrest
        intro hnotmem
        apply hnew
        simp only [List.map_cons, List.mem_cons]
        push_neg
        exact ⟨fun h => hk h.symm, hnotmem⟩

theorem addToBuckets_flatten_perm (bs : List (String × List Int)) (k : String) (v : Int) :
    ((addToBuckets bs k v).map Prod.snd).flatten.Perm ((bs.map Prod.snd).flatten ++ [v]) := by
  induction bs with
  | nil => simp [addToBuckets]
  | cons p rest ih =>
    obtain ⟨k', vs⟩ := p
    rw [addToBuckets]
    by_cases hk : k' = k
    · subst hk
      rw [if_pos rfl]
      simp only [List.map_cons, List.flatten_cons, List.append_assoc, List.singleton_append]
      exact List.Perm.append_left vs (List.perm_append_singleton v _).symm
    · rw [if_neg hk]
      simp only [List.map_cons, List.flatten_cons]
      have h2 := List.Perm.append_left vs ih
      rwa [← List.append_assoc] at h2

theorem partitionBuckets_spec (l : List Int) :
    ((partitionBuckets l).map Prod.fst).Nodup ∧
    (∀ p ∈ partitionBuckets l, p.2 = l.filter (fun i => prefixKeyOf i == p.1)) ∧
    ((partitionBuckets l).map Prod.snd).flatten.Perm l := by
  suffices h : ∀ (l : List Int) (bs : List (String × List Int)) (processed : List Int),
      (bs.map Prod.fst).Nodup →
      (∀ p ∈ bs, p.2 = processed.filter (fun i => prefixKeyOf i == p.1)) →
      (∀ x ∈ processed, prefixKeyOf x ∈ bs.map Prod.fst) →
      let res := l.foldl (fun bs i => addToBuckets bs (prefixKeyOf i) i) bs
      (res.map Prod.fst).Nodup ∧
      (∀ p ∈ res, p.2 = (processed ++ l).filter (fun i => prefixKeyOf i == p.1)) ∧
      (∀ x ∈ processed ++ l, prefixKeyOf x ∈ res.map Prod.fst) ∧
      (res.map Prod.snd).flatten.Perm ((bs.map Prod.snd).flatten ++ l) by
    obtain ⟨h1, h2, _, h4⟩ := h l [] [] (by simp) (by simp) (by simp)
    refine ⟨h1, ?_, ?_⟩
    · simpa using h2
    · simpa using h4
  intro l
  induction l with
  | nil =>
    intro bs processed hnd hval hkey
    simp only [List.foldl_nil, List.append_nil]
    exact ⟨hnd, hval, hkey, by simp⟩
  | cons v rest ih =>
    intro bs processed hnd hval hkey
    simp only [List.foldl_cons]
    have hnew : prefixKeyOf v ∉ bs.map Prod.fst →
        processed.filter (fun i => prefixKeyOf i == prefixKeyOf v) = [] := by
      intro hnot
      rcases hflt : processed.filter (fun i => prefixKeyOf i == prefixKeyOf v) with _ | ⟨x, xs⟩
      · rfl
      · exfalso
        have hx : x ∈ processed.filter (fun i => prefixKeyOf i == prefixKeyOf v) := by
          rw [hflt]; exact List.mem_cons_self _ _
        have := List.mem_filter.mp hx
        apply hnot
        rw [← (by simpa using this.2 : prefixKeyOf x = prefixKeyOf v)]
        exact hkey x this.1
    have hnd' : ((addToBuckets bs (prefixKeyOf v) v).map Prod.fst).Nodup := by
      rw [addToBuckets_keys]
      split
      · exact hnd
      · rename_i hnot
        simp [List.nodup_append, hnd, hnot]
    have hval' := addToBuckets_values rfl hnd hval hnew
    have hkey' : ∀ x ∈ processed ++ [v],
        prefixKeyOf x ∈ (addToBuckets bs (prefixKeyOf v) v).map Prod.fst := by
      intro x hx
      rw [addToBuckets_keys]
      rcases List.mem_append.mp hx with hh | hh
      · split
        · exact hkey x hh
        · exact List.mem_append.mpr (Or.inl (hkey x hh))
      · simp only [List.mem_singleton] at hh
        subst hh
        split
        · assumption
        · exact List.mem_append.mpr (Or.inr (by simp))
    obtain ⟨r1, r2, r3, r4⟩ := ih (addToBuckets bs (prefixKeyOf v) v) (processed ++ [v])
      hnd' hval' hkey'
    refine ⟨r1, ?_, ?_, ?_⟩
    · intro p hp
      have := r2 p hp
      rwa [List.append_assoc, List.singleton_append] at this
    · intro x hx
      apply r3
      rw [List.append_assoc, List.singleton_append]
      exact hx
    · apply r4.trans
      have hp2 := (addToBuckets_flatten_perm bs (prefixKeyOf v) v).append_right rest
      rwa [List.append_assoc, List.singleton_append] at hp2

/-! ### The range expander and the CIDR materializer -/

theorem slash_not_mem_int_to_ip (n : Int) : '/' ∉ (int_to_ip n).data := by
  intro hmem
  rcases mem_of_splitOnChar_dot hmem with hdot | ⟨part, hpart, hcp⟩
  · cases hdot
  · rw [splitOnChar_int_to_ip] at hpart
    simp only [List.mem_cons, List.not_mem_nil, or_false] at hpart
    rcases hpart with h | h | h | h <;>
      exact absurd hcp (h ▸ not_mem_of_all_isDigit (octChars_all_isDigit n _) slash_not_isDigit)

theorem splitOnChar_cidrTextOf (mn : Int) {p : Nat} (hp256 : p < 256) :
    splitOnChar '/' (cidrTextOf mn p).data = [(int_to_ip mn).data, (Nat.repr p).data] := by
  rw [cidrTextOf]
  rw [show (String.mk ((int_to_ip mn).data ++ '/' :: (Nat.repr p).data)).data
      = (int_to_ip mn).data ++ '/' :: (Nat.repr p).data from rfl]
  rw [splitOnChar_append _ (slash_not_mem_int_to_ip mn)]
  congr 1
  apply splitOnChar_of_not_mem
  exact not_mem_of_all_isDigit (repr_parse_lt256 p hp256).2 slash_not_isDigit

/-- Reduction of `cidr_to_ips` once the split is known to have exactly two
parts. -/
theorem cidr_to_ips_two_parts {c : String} {network plen : List Char}
    (hc : '/' ∈ c.data) (hsplit : splitOnChar '/' c.data = [network, plen]) :
    cidr_to_ips c = (do
      let prefix_len ← parseInt plen
      let network_int ← ip_to_int (String.mk (removeCip network))
      if 32 - prefix_len < 0 then none
      else
        let network_addr := Int.land network_int
          ((0xFFFFFFFF * 2 ^ (32 - prefix_len).toNat) % (2 ^ 32 : Int))
        some (((intRange (network_addr + 1)
            (network_addr + 2 ^ (32 - prefix_len).toNat - 1)).map int_to_ip).filter
          (fun s => is_excluded s == some false))) := by
  rw [cidr_to_ips, if_pos hc, hsplit]

/-- Reduction of `cidrNetBroadcast` once the split is known. -/
theorem cidrNetBroadcast_two_parts {c : String} {network plen : List Char}
    (hsplit : splitOnChar '/' c.data = [network, plen]) :
    cidrNetBroadcast c = (do
      let prefix_len ← parseInt plen
      let network_int ← ip_to_int (String.mk (removeCip network))
      if 32 - prefix_len < 0 then none
      else
        let network_addr := Int.land network_int
          ((0xFFFFFFFF * 2 ^ (32 - prefix_len).toNat) % (2 ^ 32 : Int))
        some (network_addr, network_addr + 2 ^ (32 - prefix_len).toNat - 1)) := by
  rw [cidrNetBroadcast, hsplit]

/-- The mask-and-enumerate part of `cidr_to_ips`, for a generated CIDR
text: parsing it back succeeds, and the address list is the masked range
with excluded addresses dropped. -/
theorem cidr_to_ips_cidrTextOf {mn : Int} {p : Nat} (hp : p ≤ 32) :
    cidr_to_ips (cidrTextOf mn p) =
      some (((intRange (Int.land (mn % 2 ^ 32) ((0xFFFFFFFF * 2 ^ (32 - p)) % 2 ^ 32) + 1)
            (Int.land (mn % 2 ^ 32) ((0xFFFFFFFF * 2 ^ (32 - p)) % 2 ^ 32) + 2 ^ (32 - p) - 1)).map
          int_to_ip).filter (fun s => is_excluded s == some false)) := by
  have hp256 : p < 256 := by omega
  rw [cidr_to_ips_two_parts (by
      rw [cidrTextOf]
      show '/' ∈ (int_to_ip mn).data ++ '/' :: (Nat.repr p).data
      exact List.mem_append.mpr (Or.inr (List.mem_cons_self _ _)))
    (splitOnChar_cidrTextOf mn hp256)]
  rw [(repr_parse_lt256 p hp256).1]
  simp only [Option.bind_eq_bind, Option.some_bind]
  rw [removeCip_int_to_ip]
  rw [show String.mk (int_to_ip mn).data = int_to_ip mn from string_mk_data _]
  rw [ip_to_int_int_to_ip]
  simp only [Option.some_bind]
  rw [if_neg (by omega)]
  have htn : ((32 : Int) - (p : Int)).toNat = 32 - p := by omega
  rw [htn]

theorem cidrNetBroadcast_cidrTextOf {mn : Int} {p : Nat} (hp : p ≤ 32) :
    cidrNetBroadcast (cidrTextOf mn p) =
      some (Int.land (mn % 2 ^ 32) ((0xFFFFFFFF * 2 ^ (32 - p)) % 2 ^ 32),
        Int.land (mn % 2 ^ 32) ((0xFFFFFFFF * 2 ^ (32 - p)) % 2 ^ 32) + 2 ^ (32 - p) - 1) := by
  have hp256 : p < 256 := by omega
  rw [cidrNetBroadcast_two_parts (splitOnChar_cidrTextOf mn hp256)]
  rw [(repr_parse_lt256 p hp256).1]
  simp only [Option.bind_eq_bind, Option.some_bind]
  rw [removeCip_int_to_ip]
  rw [show String.mk (int_to_ip mn).data = int_to_ip mn from string_mk_data _]
  rw [ip_to_int_int_to_ip]
  simp only [Option.some_bind]
  rw [if_neg (by omega)]
  have htn : ((32 : Int) - (p : Int)).toNat = 32 - p := by omega
  rw [htn]

/-- Inversion of a successful `expand_group_properly`: the returned record
is built from the expanded list, whose minimum gives the CIDR base and
whose span gives the clamped prefix length; the original group is
contained in the expanded list. -/
theorem expand_group_properly_spec {g : List Int} {f b : Nat} {r : ExpandResult}
    (h : expand_group_properly g f b = some r) :
    ∃ mn mx : Int, listMin r.ips_int = some mn ∧ listMax r.ips_int = some mx ∧
      r.cidr = cidrTextOf mn (max 24 (min 32 (32 - (pyBitLength (mx - mn).toNat : Int)))).toNat ∧
      (∀ x ∈ g, x ∈ r.ips_int) ∧
      r.ips_int ≠ [] := by
  rcases g with _ | ⟨g0, gs⟩
  · simp [expand_group_properly, listMin] at h
  rw [expand_group_properly] at h
  simp only [listMin, listMax, Option.bind_eq_bind, Option.some_bind] at h
  rcases hall : (padLoop (g0 :: gs) f (-1) (3 * f + 3) ((gs.foldl min g0) - 1) []).reverse
      ++ (g0 :: gs)
      ++ (intRange ((gs.foldl min g0) + 1) (gs.foldl max g0)).filter
          (fun ip => !((g0 :: gs).contains ip) && is_excluded (int_to_ip ip) == some false)
      ++ padLoop (g0 :: gs) b 1 (3 * b + 3) ((gs.foldl max g0) + 1) []
    with _ | ⟨a0, as⟩
  · exact absurd hall (by simp)
  · rw [hall] at h
    simp only [listMin, listMax, Option.some_bind, Option.pure_def, Option.some.injEq] at h
    subst h
    refine ⟨as.foldl min a0, as.foldl max a0, rfl, rfl, rfl, ?_, by simp⟩
    intro x hx
    show x ∈ a0 :: as
    rw [← hall]
    simp only [List.mem_append]
    left
    left
    right
    exact hx

/-! ### Inversion of the assembler -/

theorem addrKeyed_inv : ∀ {l : List String} {k : List (String × Int)},
    addrKeyed l = some k →
    k.map Prod.fst = l ∧ ∀ p ∈ k, ip_to_int p.1 = some p.2 := by
  intro l
  induction l with
  | nil =>
    intro k h
    cases h
    exact ⟨rfl, by simp⟩
  | cons x xs ih =>
    intro k h
    rw [addrKeyed, pyMapM] at h
    rcases hx : ip_to_int x with _ | v
    · rw [hx] at h; cases h
    rw [hx] at h
    rcases hrest : addrKeyed xs with _ | krest
    · rw [addrKeyed] at hrest
      rw [hrest] at h; cases h
    · rw [addrKeyed] at hrest
      rw [hrest] at h
      simp only [Option.bind_eq_bind, Option.some_bind, Option.pure_def, Option.some.injEq] at h
      subst h
      obtain ⟨hfst, hall⟩ := ih hrest
      refine ⟨by simp [hfst], ?_⟩
      intro p hp
      rcases List.mem_cons.mp hp with rfl | hh
      · exact hx
      · exact hall p hh

theorem cidrKeyed_inv : ∀ {l : List String} {k : List (String × Int)},
    cidrKeyed l = some k →
    k.map Prod.fst = l ∧ ∀ p ∈ k, cidrKeyOf p.1 = some p.2 := by
  intro l
  induction l with
  | nil =>
    intro k h
    cases h
    exact ⟨rfl, by simp⟩
  | cons x xs ih =>
    intro k h
    rw [cidrKeyed, pyMapM] at h
    rcases hx : cidrKeyOf x with _ | v
    · rw [hx] at h; cases h
    rw [hx] at h
    rcases hrest : cidrKeyed xs with _ | krest
    · rw [cidrKeyed] at hrest
      rw [hrest] at h; cases h
    · rw [cidrKeyed] at hrest
      rw [hrest] at h
      simp only [Option.bind_eq_bind, Option.some_bind, Option.pure_def, Option.some.injEq] at h
      subst h
      obtain ⟨hfst, hall⟩ := ih hrest
      refine ⟨by simp [hfst], ?_⟩
      intro p hp
      rcases List.mem_cons.mp hp with rfl | hh
      · exact hx
      · exact hall p hh

theorem assemble_inv {s : List Int} {out : List String × List String}
    (h : assemble s = some out) :
    ∃ (results : List (List String × List String × List String))
      (keyed ckeyed : List (String × Int)),
      pyMapM (fun b => processBucket b.2) (partitionBuckets s) = some results ∧
      addrKeyed (pyDedup ((results.map (fun r => r.1)).flatten
        ++ (results.map (fun r => r.2.2)).flatten)) = some keyed ∧
      cidrKeyed ((results.map (fun r => r.2.1)).flatten) = some ckeyed ∧
      out.1 = (List.insertionSort (fun a b => a.2 ≤ b.2) keyed).map (fun p => p.1) ∧
      out.2 = (List.insertionSort (fun a b => a.2 ≤ b.2) ckeyed).map (fun p => p.1) := by
  rw [assemble] at h
  rcases hres : pyMapM (fun b => processBucket b.2) (partitionBuckets s) with _ | results
  · rw [hres] at h; cases h
  rw [hres] at h
  simp only [Option.bind_eq_bind, Option.some_bind] at h
  rcases hkeyed : addrKeyed (pyDedup ((results.map (fun r => r.1)).flatten
      ++ (results.map (fun r => r.2.2)).flatten)) with _ | keyed
  · rw [hkeyed] at h; cases h
  rw [hkeyed] at h
  simp only [Option.some_bind] at h
  rcases hck : cidrKeyed ((results.map (fun r => r.2.1)).flatten) with _ | ckeyed
  · rw [hck] at h; cases h
  rw [hck] at h
  simp only [Option.some_bind, Option.pure_def, Option.some.injEq] at h
  exact ⟨results, keyed, ckeyed, hres, hkeyed, hck, by rw [← h], by rw [← h]⟩

theorem run_tail_inv {cl2 : List String} {out : List String × List String}
    (h : (do
        let valid_ips ← pyFilterM keepNotExcluded cl2
        if valid_ips = [] then pure (([], []) : List String × List String)
        else do
          let ips_int ← pyMapM ip_to_int valid_ips
          assemble (List.insertionSort (fun a b => a ≤ b) ips_int)) = some out) :
    ∃ valid : List String,
      pyFilterM keepNotExcluded cl2 = some valid ∧
      ((valid = [] ∧ out = ([], [])) ∨
        (valid ≠ [] ∧ ∃ ints : List Int, pyMapM ip_to_int valid = some ints ∧
          assemble (List.insertionSort (fun a b => a ≤ b) ints) = some out)) := by
  rcases hva : pyFilterM keepNotExcluded cl2 with _ | valid
  · rw [hva] at h; cases h
  rw [hva] at h
  simp only [Option.bind_eq_bind, Option.some_bind] at h
  refine ⟨valid, rfl, ?_⟩
  by_cases hv : valid = []
  · rw [if_pos hv] at h
    left
    exact ⟨hv, by cases h; rfl⟩
  · rw [if_neg hv] at h
    right
    refine ⟨hv, ?_⟩
    rcases hints : pyMapM ip_to_int valid with _ | ints
    · rw [hints] at h; cases h
    rw [hints] at h
    simp only [Option.some_bind] at h
    exact ⟨ints, rfl, h⟩

theorem run_some_inv {l : List String} {fp : Bool} {out : List String × List String}
    (h : run l fp = some out) :
    ∃ cl2 valid : List String,
      (if fp then filter_private_ips (l.map pyReplaceCip)
        else some (l.map pyReplaceCip)) = some cl2 ∧
      pyFilterM keepNotExcluded cl2 = some valid ∧
      ((valid = [] ∧ out = ([], [])) ∨
        (valid ≠ [] ∧ ∃ ints : List Int, pyMapM ip_to_int valid = some ints ∧
          assemble (List.insertionSort (fun a b => a ≤ b) ints) = some out)) := by
  rw [run] at h
  rcases fp with _ | _
  · simp only [Bool.false_eq_true, if_false, Option.pure_def, Option.bind_eq_bind,
      Option.some_bind] at h
    obtain ⟨valid, hva, hrest⟩ := run_tail_inv h
    exact ⟨_, valid, if_neg (by simp), hva, hrest⟩
  · simp only [if_true, Option.bind_eq_bind] at h
    rcases hcl2 : filter_private_ips (l.map pyReplaceCip)
      with _ | cl2
    · simp only [hcl2, Option.bind_eq_bind, Option.none_bind, reduceCtorEq] at h
    rw [hcl2] at h
    simp only [Option.some_bind] at h
    obtain ⟨valid, hva, hrest⟩ := run_tail_inv h
    exact ⟨cl2, valid, by rw [if_pos rfl], hva, hrest⟩

/-! ### Permutation invariance of the pipeline stages -/

theorem pyFilterM_none_iff {p : α → Option Bool} : ∀ {l : List α},
    pyFilterM p l = none ↔ ∃ x ∈ l, (p x).isSome = false := by
  intro l
  rcases h : pyFilterM p l with _ | r
  · simp only [true_iff]
    by_contra hall
    push_neg at hall
    have : ∀ x ∈ l, (p x).isSome := by
      intro x hx
      have h2 := hall x hx
      simp only [Bool.not_eq_false] at h2
      exact h2
    have := pyFilterM_eq_some_iff.mpr ⟨this, rfl⟩
    rw [h] at this
    cases this
  · simp only [reduceCtorEq, false_iff]
    push_neg
    intro x hx
    have := (pyFilterM_eq_some_iff.mp h).1 x hx
    simp [this]

theorem pyMapM_eq_some_getD [Inhabited β] {f : α → Option β} : ∀ {l : List α} {r : List β},
    pyMapM f l = some r →
    (∀ x ∈ l, (f x).isSome) ∧ r = l.map (fun x => (f x).getD default) := by
  intro l
  induction l with
  | nil =>
    intro r h
    cases h
    exact ⟨by simp, rfl⟩
  | cons x xs ih =>
    intro r h
    rw [pyMapM] at h
    rcases hx : f x with _ | y
    · rw [hx] at h; cases h
    rw [hx] at h
    rcases hrest : pyMapM f xs with _ | rest
    · rw [hrest] at h; cases h
    rw [hrest] at h
    simp only [Option.bind_eq_bind, Option.some_bind, Option.pure_def, Option.some.injEq] at h
    subst h
    obtain ⟨hall, hr⟩ := ih hrest
    refine ⟨?_, ?_⟩
    · intro z hz
      rcases List.mem_cons.mp hz with rfl | hh
      · simp [hx]
      · exact hall z hh
    · rw [List.map_cons, hx, ← hr]
      rfl

theorem pyMapM_some_of_isSome [Inhabited β] {f : α → Option β} : ∀ {l : List α},
    (∀ x ∈ l, (f x).isSome) → pyMapM f l = some (l.map (fun x => (f x).getD default)) := by
  intro l
  induction l with
  | nil => intro _; rfl
  | cons x xs ih =>
    intro hall
    rw [pyMapM]
    have hx := hall x (List.mem_cons_self x xs)
    rcases hfx : f x with _ | y
    · rw [hfx] at hx; cases hx
    rw [ih (fun z hz => hall z (List.mem_cons_of_mem x hz))]
    simp [hfx]

theorem pyMapM_none_iff_isSome {f : α → Option β} {l : List α} :
    pyMapM f l = none ↔ ∃ x ∈ l, (f x).isSome = false := by
  rw [pyMapM_none_iff]
  constructor
  · rintro ⟨x, hx, hfx⟩
    exact ⟨x, hx, by simp [hfx]⟩
  · rintro ⟨x, hx, hfx⟩
    refine ⟨x, hx, ?_⟩
    rcases hf : f x with _ | y
    · rfl
    · rw [hf] at hfx; cases hfx

theorem pyFilterM_perm {p : α → Option Bool} {l l' : List α} (hperm : l.Perm l') :
    (pyFilterM p l = none → pyFilterM p l' = none) ∧
    (∀ r, pyFilterM p l = some r → ∃ r', pyFilterM p l' = some r' ∧ r.Perm r') := by
  constructor
  · intro h
    obtain ⟨x, hx, hpx⟩ := pyFilterM_none_iff.mp h
    exact pyFilterM_none_iff.mpr ⟨x, hperm.mem_iff.mp hx, hpx⟩
  · intro r h
    obtain ⟨hall, hr⟩ := pyFilterM_eq_some_iff.mp h
    refine ⟨l'.filter (fun x => (p x).getD false),
      pyFilterM_eq_some_iff.mpr ⟨fun x hx => hall x (hperm.mem_iff.mpr hx), rfl⟩, ?_⟩
    rw [hr]
    exact hperm.filter _

theorem pyMapM_perm [Inhabited β] {f : α → Option β} {l l' : List α} (hperm : l.Perm l') :
    (pyMapM f l = none → pyMapM f l' = none) ∧
    (∀ r, pyMapM f l = some r → ∃ r', pyMapM f l' = some r' ∧ r.Perm r') := by
  constructor
  · intro h
    obtain ⟨x, hx, hfx⟩ := pyMapM_none_iff_isSome.mp h
    exact pyMapM_none_iff_isSome.mpr ⟨x, hperm.mem_iff.mp hx, hfx⟩
  · intro r h
    obtain ⟨hall, hr⟩ := pyMapM_eq_some_getD h
    refine ⟨l'.map (fun x => (f x).getD default),
      pyMapM_some_of_isSome (fun x hx => hall x (hperm.mem_iff.mpr hx)), ?_⟩
    rw [hr]
    exact hperm.map _

theorem sorted_int_le (ints : List Int) :
    List.Sorted (fun a b : Int => a ≤ b) (List.insertionSort (fun a b => a ≤ b) ints) :=
  List.sorted_insertionSort _ ints

/-- Sorting two permuted integer lists gives the same list. -/
theorem insertionSort_int_of_perm {ints ints' : List Int} (hperm : ints.Perm ints') :
    List.insertionSort (fun a b => a ≤ b) ints
      = List.insertionSort (fun a b => a ≤ b) ints' := by
  apply List.eq_of_perm_of_sorted ?_ (sorted_int_le ints) (sorted_int_le ints')
  exact ((List.perm_insertionSort _ ints).trans hperm).trans
    (List.perm_insertionSort _ ints').symm

/-- `run` is invariant under permutation of its input list. -/
theorem run_perm_invariant (l l' : List String) (fp : Bool) (hperm : l.Perm l') :
    run l fp = run l' fp := by
  rw [run, run]
  have hclean : (l.map pyReplaceCip).Perm (l'.map pyReplaceCip) := hperm.map _
  -- reduce to a statement about the two (possibly failing) private-filter stages
  suffices htail : ∀ cl2 cl2' : List String, cl2.Perm cl2' →
      (do
        let valid_ips ← pyFilterM keepNotExcluded cl2
        if valid_ips = [] then pure (([], []) : List String × List String)
        else do
          let ips_int ← pyMapM ip_to_int valid_ips
          assemble (List.insertionSort (fun a b => a ≤ b) ips_int)) =
      (do
        let valid_ips ← pyFilterM keepNotExcluded cl2'
        if valid_ips = [] then pure (([], []) : List String × List String)
        else do
          let ips_int ← pyMapM ip_to_int valid_ips
          assemble (List.insertionSort (fun a b => a ≤ b) ips_int)) by
    rcases fp with _ | _
    · simp only [Bool.false_eq_true, if_false, Option.pure_def, Option.bind_eq_bind,
        Option.some_bind]
      exact htail _ _ hclean
    · simp only [if_true, Option.bind_eq_bind, filter_private_ips]
      rcases hcl2 : pyFilterM keepNotPrivate (l.map pyReplaceCip) with _ | cl2
      · rw [(pyFilterM_perm hclean).1 hcl2]
      · obtain ⟨cl2', hcl2', hpcl⟩ := (pyFilterM_perm hclean).2 cl2 hcl2
        rw [hcl2']
        simp only [Option.some_bind]
        exact htail cl2 cl2' hpcl
  intro cl2 cl2' hpcl
  rcases hva : pyFilterM keepNotExcluded cl2 with _ | valid
  · rw [(pyFilterM_perm hpcl).1 hva]
  obtain ⟨valid', hva', hpv⟩ := (pyFilterM_perm hpcl).2 valid hva
  rw [hva']
  simp only [Option.bind_eq_bind, Option.some_bind]
  by_cases hv : valid = []
  · subst hv
    rw [if_pos rfl, if_pos hpv.symm.eq_nil]
  · rw [if_neg hv, if_neg (fun hh => hv (by rw [hh] at hpv; exact hpv.eq_nil))]
    rcases hints : pyMapM ip_to_int valid with _ | ints
    · rw [(pyMapM_perm hpv).1 hints]
    obtain ⟨ints', hints', hpi⟩ := (pyMapM_perm hpv).2 ints hints
    rw [hints']
    simp only [Option.some_bind]
    rw [insertionSort_int_of_perm hpi]

/-! ### Sortedness and deduplication of the final outputs -/

theorem pairSortTotal : IsTotal (String × Int) (fun a b => a.2 ≤ b.2) :=
  ⟨fun a b => le_total a.2 b.2⟩

theorem pairSortTrans : IsTrans (String × Int) (fun a b => a.2 ≤ b.2) :=
  ⟨fun _ _ _ => le_trans⟩

theorem mem_keyed_sort_iff {keyed : List (String × Int)} {a : String} :
    a ∈ (List.insertionSort (fun a b => a.2 ≤ b.2) keyed).map (fun p => p.1) ↔
      a ∈ keyed.map (fun p => p.1) :=
  ((List.perm_insertionSort _ keyed).map _).mem_iff

theorem keyed_sort_pairwise {keyed : List (String × Int)} {key : String → Option Int}
    (hall : ∀ p ∈ keyed, key p.1 = some p.2) :
    List.Pairwise (fun a b => (key a).getD 0 ≤ (key b).getD 0)
      ((List.insertionSort (fun a b => a.2 ≤ b.2) keyed).map (fun p => p.1)) := by
  haveI := pairSortTotal
  haveI := pairSortTrans
  have hsorted : List.Pairwise (fun a b : String × Int => a.2 ≤ b.2)
      (List.insertionSort (fun a b => a.2 ≤ b.2) keyed) :=
    List.sorted_insertionSort _ keyed
  rw [List.pairwise_map]
  apply hsorted.imp_of_mem
  intro p q hp hq hle
  have hpmem : p ∈ keyed := ((List.perm_insertionSort _ keyed)).mem_iff.mp hp
  have hqmem : q ∈ keyed := ((List.perm_insertionSort _ keyed)).mem_iff.mp hq
  rw [hall p hpmem, hall q hqmem]
  simpa using hle

theorem keyed_sort_nodup {keyed : List (String × Int)}
    (hnd : (keyed.map (fun p => p.1)).Nodup) :
    ((List.insertionSort (fun a b => a.2 ≤ b.2) keyed).map (fun p => p.1)).Nodup :=
  (((List.perm_insertionSort _ keyed).map _).nodup_iff).mpr hnd

/-- The two outputs of a successful `run` are sorted by the integer sort
keys the source uses, and the address output has no duplicates. -/
theorem run_out_sorted {l : List String} {fp : Bool} {out : List String × List String}
    (h : run l fp = some out) :
    List.Pairwise (fun a b => (ip_to_int a).getD 0 ≤ (ip_to_int b).getD 0) out.1 ∧
    out.1.Nodup ∧
    List.Pairwise (fun a b => (cidrKeyOf a).getD 0 ≤ (cidrKeyOf b).getD 0) out.2 := by
  obtain ⟨cl2, valid, hcl2, hva, hrest⟩ := run_some_inv h
  rcases hrest with ⟨-, rfl⟩ | ⟨-, ints, hints, hasm⟩
  · exact ⟨List.Pairwise.nil, List.nodup_nil, List.Pairwise.nil⟩
  · obtain ⟨results, keyed, ckeyed, hres, hkeyed, hck, hout1, hout2⟩ := assemble_inv hasm
    obtain ⟨hkfst, hkall⟩ := addrKeyed_inv hkeyed
    obtain ⟨hcfst, hcall⟩ := cidrKeyed_inv hck
    refine ⟨?_, ?_, ?_⟩
    · rw [hout1]
      exact keyed_sort_pairwise hkall
    · rw [hout1]
      apply keyed_sort_nodup
      rw [hkfst]
      exact pyDedup_nodup _
    · rw [hout2]
      exact keyed_sort_pairwise hcall

/-! ### Membership structure of the assembled outputs -/

theorem forall₂_mem_right {R : α → β → Prop} : ∀ {l : List α} {r : List β},
    List.Forall₂ R l r → ∀ b ∈ r, ∃ a ∈ l, R a b := by
  intro l r h
  induction h with
  | nil => simp
  | cons hab _ ih =>
    intro b hb
    rcases List.mem_cons.mp hb with rfl | hh
    · exact ⟨_, List.mem_cons_self _ _, hab⟩
    · obtain ⟨a, ha, hr⟩ := ih b hh
      exact ⟨a, List.mem_cons_of_mem _ ha, hr⟩

theorem forall₂_mem_left {R : α → β → Prop} : ∀ {l : List α} {r : List β},
    List.Forall₂ R l r → ∀ a ∈ l, ∃ b ∈ r, R a b := by
  intro l r h
  induction h with
  | nil => simp
  | cons hab _ ih =>
    intro a ha
    rcases List.mem_cons.mp ha with rfl | hh
    · exact ⟨_, List.mem_cons_self _ _, hab⟩
    · obtain ⟨b, hb, hr⟩ := ih a hh
      exact ⟨b, List.mem_cons_of_mem _ hb, hr⟩

theorem processBucket_inv {ips : List Int} {res : List String × List String × List String}
    (h : processBucket ips = some res) :
    ∃ results : List ExpandResult,
      pyMapM (fun g => expand_group_properly g 10 10) (group_by_gap ips 8).1 = some results ∧
      ∃ cidrIps : List (List String),
        pyMapM cidr_to_ips (results.map (fun r => r.cidr)) = some cidrIps ∧
        res = (cidrIps.flatten, results.map (fun r => r.cidr),
          (group_by_gap ips 8).2.map int_to_ip) := by
  rw [processBucket] at h
  rcases hres : pyMapM (fun g => expand_group_properly g 10 10) (group_by_gap ips 8).1
    with _ | results
  · rw [hres] at h; cases h
  rw [hres] at h
  simp only [Option.bind_eq_bind, Option.some_bind] at h
  rcases hci : pyMapM cidr_to_ips (results.map (fun r => r.cidr)) with _ | cidrIps
  · rw [hci] at h; cases h
  rw [hci] at h
  simp only [Option.some_bind, Option.pure_def, Option.some.injEq] at h
  exact ⟨results, rfl, cidrIps, hci, h.symm⟩

theorem assemble_spec {s : List Int} {out : List String × List String}
    (h : assemble s = some out) :
    ∃ results : List (List String × List String × List String),
      pyMapM (fun b => processBucket b.2) (partitionBuckets s) = some results ∧
      (∀ a, a ∈ out.1 ↔ a ∈ (results.map (fun r => r.1)).flatten
        ∨ a ∈ (results.map (fun r => r.2.2)).flatten) ∧
      (∀ c, c ∈ out.2 ↔ c ∈ (results.map (fun r => r.2.1)).flatten) := by
  obtain ⟨results, keyed, ckeyed, hres, hkeyed, hck, hout1, hout2⟩ := assemble_inv h
  obtain ⟨hkfst, -⟩ := addrKeyed_inv hkeyed
  obtain ⟨hcfst, -⟩ := cidrKeyed_inv hck
  refine ⟨results, hres, ?_, ?_⟩
  · intro a
    rw [hout1, mem_keyed_sort_iff, hkfst, mem_pyDedup, List.mem_append]
  · intro c
    rw [hout2, mem_keyed_sort_iff, hcfst]

/-- Case analysis for an address in the first output of `run`: it was
materialized from one of the output CIDR blocks, or it is the rendering of
a parsed input token that survived both filters as a single. -/
theorem run_out1_cases {l : List String} {fp : Bool} {out : List String × List String}
    (h : run l fp = some out) {a : String} (ha : a ∈ out.1) :
    (∃ c ∈ out.2, ∃ ips, cidr_to_ips c = some ips ∧ a ∈ ips) ∨
    (∃ m : Int, a = int_to_ip m ∧ ∃ t ∈ l,
      ip_to_int (pyReplaceCip t) = some m ∧
      keepNotExcluded (pyReplaceCip t) = some true ∧
      (fp = true → keepNotPrivate (pyReplaceCip t) = some true)) := by
  obtain ⟨cl2, valid, hcl2, hva, hrest⟩ := run_some_inv h
  rcases hrest with ⟨-, rfl⟩ | ⟨-, ints, hints, hasm⟩
  · cases ha
  obtain ⟨results, hres, hmem1, hmem2⟩ := assemble_spec hasm
  -- facts about valid/cl2 membership
  have hvalid_sub : ∀ t ∈ valid, t ∈ l.map pyReplaceCip ∧ keepNotExcluded t = some true ∧
      (fp = true → keepNotPrivate t = some true) := by
    intro t ht
    obtain ⟨hall2, hv2⟩ := pyFilterM_eq_some_iff.mp hva
    rw [hv2] at ht
    have htcl2 : t ∈ cl2 := (List.mem_filter.mp ht).1
    have htkeep : (keepNotExcluded t).getD false = true := by
      simpa using (List.mem_filter.mp ht).2
    have htex : keepNotExcluded t = some true := by
      rcases hk : keepNotExcluded t with _ | b
      · rw [hk] at htkeep; cases htkeep
      · rw [hk] at htkeep
        simp only [Option.getD_some] at htkeep
        rw [htkeep]
    rcases hfp : fp with _ | _
    · subst hfp
      rw [if_neg (by simp)] at hcl2
      have : cl2 = l.map pyReplaceCip := by
        cases hcl2
        rfl
      subst this
      exact ⟨htcl2, htex, by simp⟩
    · subst hfp
      rw [if_pos rfl, filter_private_ips] at hcl2
      obtain ⟨hall3, hv3⟩ := pyFilterM_eq_some_iff.mp hcl2
      rw [hv3] at htcl2
      have htl : t ∈ l.map pyReplaceCip := (List.mem_filter.mp htcl2).1
      have htp : (keepNotPrivate t).getD false = true := by
        simpa using (List.mem_filter.mp htcl2).2
      have htpriv : keepNotPrivate t = some true := by
        rcases hk : keepNotPrivate t with _ | b
        · rw [hk] at htp; cases htp
        · rw [hk] at htp
          simp only [Option.getD_some] at htp
          rw [htp]
      exact ⟨htl, htex, fun _ => htpriv⟩
  -- ints are parses of valid tokens, and sorted ints are a permutation
  have hints_fa := pyMapM_forall₂.mp hints
  rcases (hmem1 a).mp ha with hcase | hcase
  · -- materialized from a CIDR of some bucket
    left
    obtain ⟨il, hil, hail⟩ := List.mem_flatten.mp hcase
    obtain ⟨res, hresmem, hresil⟩ := List.mem_map.mp hil
    obtain ⟨bucket, hbucket, hpb⟩ := forall₂_mem_right (pyMapM_forall₂.mp hres) res hresmem
    obtain ⟨eresults, heres, cidrIps, hci, hresq⟩ := processBucket_inv hpb
    have hres1 : res.1 = cidrIps.flatten := by rw [hresq]
    rw [hres1] at hresil
    subst hresil
    obtain ⟨il2, hil2, hail2⟩ := List.mem_flatten.mp hail
    obtain ⟨c, hc, hcil2⟩ := forall₂_mem_right (pyMapM_forall₂.mp hci) il2 hil2
    refine ⟨c, ?_, il2, hcil2, hail2⟩
    apply (hmem2 c).mpr
    apply List.mem_flatten.mpr
    refine ⟨res.2.1, List.mem_map.mpr ⟨res, hresmem, rfl⟩, ?_⟩
    rw [hresq]
    exact hc
  · -- a rendered single
    right
    obtain ⟨il, hil, hail⟩ := List.mem_flatten.mp hcase
    obtain ⟨res, hresmem, hresil⟩ := List.mem_map.mp hil
    obtain ⟨bucket, hbucket, hpb⟩ := forall₂_mem_right (pyMapM_forall₂.mp hres) res hresmem
    obtain ⟨eresults, heres, cidrIps, hci, hresq⟩ := processBucket_inv hpb
    have hres2 : res.2.2 = (group_by_gap bucket.2 8).2.map int_to_ip := by rw [hresq]
    rw [hres2] at hresil
    subst hresil
    obtain ⟨m, hm, hma⟩ := List.mem_map.mp hail
    refine ⟨m, hma.symm, ?_⟩
    -- m is a single of the bucket, hence a member of the sorted parsed list
    have hm_in_bucket : m ∈ bucket.2 := mem_of_mem_singles hm
    have hm_in_sorted : m ∈ List.insertionSort (fun a b => a ≤ b) ints := by
      obtain ⟨-, hspec, -⟩ := partitionBuckets_spec (List.insertionSort (fun a b => a ≤ b) ints)
      have := hspec bucket hbucket
      rw [this] at hm_in_bucket
      exact (List.mem_filter.mp hm_in_bucket).1
    have hm_in_ints : m ∈ ints := (List.perm_insertionSort _ ints).mem_iff.mp hm_in_sorted
    obtain ⟨t, ht, htm⟩ := forall₂_mem_right hints_fa m hm_in_ints
    obtain ⟨htl, htex, htpriv⟩ := hvalid_sub t ht
    obtain ⟨t0, htl0, ht0⟩ := List.mem_map.mp htl
    exact ⟨t0, htl0, by rw [ht0]; exact htm, by rw [ht0]; exact htex, by rw [ht0]; exact htpriv⟩

/-- Every materialized address of an output CIDR block appears in the
address output. -/
theorem run_cidr_ips_in_out1 {l : List String} {fp : Bool} {out : List String × List String}
    (h : run l fp = some out) {c : String} (hc : c ∈ out.2) {ips : List String}
    (hips : cidr_to_ips c = some ips) {a : String} (ha : a ∈ ips) : a ∈ out.1 := by
  obtain ⟨cl2, valid, hcl2, hva, hrest⟩ := run_some_inv h
  rcases hrest with ⟨-, rfl⟩ | ⟨-, ints, hints, hasm⟩
  · cases hc
  obtain ⟨results, hres, hmem1, hmem2⟩ := assemble_spec hasm
  have hcmem := (hmem2 c).mp hc
  obtain ⟨cl, hclmem, hccl⟩ := List.mem_flatten.mp hcmem
  obtain ⟨res, hresmem, hrescl⟩ := List.mem_map.mp hclmem
  obtain ⟨bucket, hbucket, hpb⟩ := forall₂_mem_right (pyMapM_forall₂.mp hres) res hresmem
  obtain ⟨eresults, heres, cidrIps, hci, hresq⟩ := processBucket_inv hpb
  have hcl21 : res.2.1 = eresults.map (fun r => r.cidr) := by rw [hresq]
  rw [← hrescl, hcl21] at hccl
  obtain ⟨il, hil, hcil⟩ := forall₂_mem_left (pyMapM_forall₂.mp hci) c hccl
  have hil_eq : il = ips := by
    rw [hips] at hcil
    cases hcil
    rfl
  apply (hmem1 a).mpr
  left
  apply List.mem_flatten.mpr
  refine ⟨res.1, List.mem_map.mpr ⟨res, hresmem, rfl⟩, ?_⟩
  have hres1 : res.1 = cidrIps.flatten := by rw [hresq]
  rw [hres1]
  exact List.mem_flatten.mpr ⟨il, hil, hil_eq ▸ ha⟩

/-! ### Facts about well-formed surviving tokens -/

theorem beq_some_false_iff {o : Option Bool} : (o == some false) = true ↔ o = some false := by
  rcases o with _ | b
  · simp
  · rcases b <;> simp

theorem pyReplaceCip_of_wf {s : String} (h : wellFormedIp s = true) : pyReplaceCip s = s := by
  obtain ⟨t0, t1, t2, t3, -, -, -, -, -, -, -, hclean⟩ := wellFormedIp_elim h
  rw [pyReplaceCip, hclean]

theorem clamp_prefix_bounds (x : Int) :
    24 ≤ (max 24 (min 32 x)).toNat ∧ (max 24 (min 32 x)).toNat ≤ 32 := by
  omega

/-- Every CIDR text in the second output of `run` is the generated form:
the dotted quad of some integer followed by a prefix length in [24, 32]. -/
theorem run_out2_shape {l : List String} {fp : Bool} {out : List String × List String}
    (h : run l fp = some out) :
    ∀ c ∈ out.2, ∃ (mn : Int) (p : Nat), c = cidrTextOf mn p ∧ 24 ≤ p ∧ p ≤ 32 := by
  intro c hc
  obtain ⟨cl2, valid, hcl2, hva, hrest⟩ := run_some_inv h
  rcases hrest with ⟨-, rfl⟩ | ⟨-, ints, hints, hasm⟩
  · cases hc
  obtain ⟨results, hres, hmem1, hmem2⟩ := assemble_spec hasm
  have hcmem := (hmem2 c).mp hc
  obtain ⟨cl, hclmem, hccl⟩ := List.mem_flatten.mp hcmem
  obtain ⟨res, hresmem, hrescl⟩ := List.mem_map.mp hclmem
  obtain ⟨bucket, hbucket, hpb⟩ := forall₂_mem_right (pyMapM_forall₂.mp hres) res hresmem
  obtain ⟨eresults, heres, cidrIps, hci, hresq⟩ := processBucket_inv hpb
  have hcl21 : res.2.1 = eresults.map (fun r => r.cidr) := by rw [hresq]
  rw [← hrescl, hcl21] at hccl
  obtain ⟨er, herm, herc⟩ := List.mem_map.mp hccl
  obtain ⟨g, hg, hexp⟩ := forall₂_mem_right (pyMapM_forall₂.mp heres) er herm
  obtain ⟨mn, mx, -, -, hcidr, -, -⟩ := expand_group_properly_spec hexp
  refine ⟨mn, (max 24 (min 32 (32 - (pyBitLength (mx - mn).toNat : Int)))).toNat, ?_, ?_, ?_⟩
  · rw [← herc, hcidr]
  · exact (clamp_prefix_bounds _).1
  · exact (clamp_prefix_bounds _).2

/-- Addresses materialized from a generated CIDR text all pass the
exclusion check. -/
theorem mem_materialized_not_excluded {mn : Int} {p : Nat} (hp : p ≤ 32) {ips : List String}
    (hips : cidr_to_ips (cidrTextOf mn p) = some ips) {a : String} (ha : a ∈ ips) :
    is_excluded a = some false := by
  rw [cidr_to_ips_cidrTextOf hp] at hips
  cases hips
  have := (List.mem_filter.mp ha).2
  exact beq_some_false_iff.mp this

theorem keepNotExcluded_some_true {t : String} {e : Bool}
    (hex : is_excluded t = some e) (h : keepNotExcluded t = some true) : e = false := by
  rw [keepNotExcluded, hex] at h
  simp only [Option.bind_eq_bind, Option.some_bind, Option.pure_def, Option.some.injEq] at h
  rcases e
  · rfl
  · cases h

theorem keepNotPrivate_some_true {t : String} {e : Bool}
    (hpr : is_private_ip t = some e) (h : keepNotPrivate t = some true) : e = false := by
  rw [keepNotPrivate, hpr] at h
  simp only [Option.bind_eq_bind, Option.some_bind, Option.pure_def, Option.some.injEq] at h
  rcases e
  · rfl
  · cases h

/-- The surviving-single case of `run_out1_cases`, specialized to
well-formed input tokens: the rendered address passes the exclusion check
and, when the private filter was on, the privacy check. -/
theorem wf_single_facts {t : String} (hwf : wellFormedIp t = true) {m : Int}
    (hm : ip_to_int (pyReplaceCip t) = some m)
    (hex : keepNotExcluded (pyReplaceCip t) = some true) :
    0 ≤ m ∧ m < 2 ^ 32 ∧ is_excluded (int_to_ip m) = some false ∧
      (keepNotPrivate (pyReplaceCip t) = some true → is_private_ip (int_to_ip m) = some false) := by
  rw [pyReplaceCip_of_wf hwf] at hm hex ⊢
  obtain ⟨t0, t1, t2, t3, hb0, hb1, hb2, hb3, hip, hexc, hpriv, -⟩ := wellFormedIp_elim hwf
  rw [hip] at hm
  cases hm
  have hlt := mkIpVal_lt hb0 hb1 hb2 hb3
  have he3 : ((t3 : Int) == 0 || (t3 : Int) == 255) = false :=
    keepNotExcluded_some_true hexc hex
  refine ⟨by positivity, by exact_mod_cast hlt, ?_, ?_⟩
  · rw [is_excluded_int_to_ip, pyOctet_mkIpVal_0 hb0 hb1 hb2 hb3, he3]
  · intro hknp
    have hp : privPred (t0 : Int) (t1 : Int) = false :=
      keepNotPrivate_some_true hpriv hknp
    rw [is_private_ip_int_to_ip, pyOctet_mkIpVal_24 hb0 hb1 hb2 hb3,
      pyOctet_mkIpVal_16 hb0 hb1 hb2 hb3, hp]

/-! ### Small auxiliary facts used by the claim theorems -/

theorem mem_of_getLast?_eq {l : List Char} {a : List Char}
    (h : (splitOnChar '.' l).getLast? = some a) : a ∈ splitOnChar '.' l := by
  obtain ⟨hne, rfl⟩ := List.mem_getLast?_eq_getLast (by rw [h]; rfl)
  exact List.getLast_mem hne

theorem mask_value {p : Nat} (hp : p ≤ 32) :
    ((0xFFFFFFFF : Int) * 2 ^ (32 - p)) % 2 ^ 32 = 2 ^ 32 - 2 ^ (32 - p) := by
  have h1 : (1:Int) ≤ 2 ^ (32 - p) := one_le_pow₀ (by norm_num)
  have h2 : (2:Int) ^ (32 - p) ≤ 2 ^ 32 := pow_le_pow_right₀ (by norm_num) (by omega)
  omega

theorem land_nonneg_le {x : Int} {m : Int} (hx : 0 ≤ x) (hm : 0 ≤ m) :
    0 ≤ Int.land x m ∧ Int.land x m ≤ m := by
  obtain ⟨a, rfl⟩ := Int.eq_ofNat_of_zero_le hx
  obtain ⟨b, rfl⟩ := Int.eq_ofNat_of_zero_le hm
  rw [show Int.land (a : Int) (b : Int) = ((a &&& b : Nat) : Int) from rfl]
  constructor
  · positivity
  · exact_mod_cast Nat.and_le_right

/-- Network and broadcast bounds of a generated CIDR text. -/
theorem cidrNetBroadcast_bounds {mn : Int} {p : Nat} (hp : p ≤ 32) {nb : Int × Int}
    (h : cidrNetBroadcast (cidrTextOf mn p) = some nb) :
    0 ≤ nb.1 ∧ nb.2 < 2 ^ 32 ∧ nb.2 = nb.1 + 2 ^ (32 - p) - 1 := by
  rw [cidrNetBroadcast_cidrTextOf hp] at h
  cases h
  have h1 : (1:Int) ≤ 2 ^ (32 - p) := one_le_pow₀ (by norm_num)
  have h2 : (2:Int) ^ (32 - p) ≤ 2 ^ 32 := pow_le_pow_right₀ (by norm_num) (by omega)
  have hmod : 0 ≤ mn % 2 ^ 32 := Int.emod_nonneg _ (by norm_num)
  have hmask : (0:Int) ≤ 2 ^ 32 - 2 ^ (32 - p) := by omega
  obtain ⟨hge, hle⟩ := land_nonneg_le hmod hmask
  simp only [mask_value hp]
  exact ⟨hge, by omega, trivial⟩

/-! ## The claims -/

/-- C1 (amended).  Coverage of原... materializing the CIDR derived from a
cluster's expanded range emits exactly those original members lying
strictly between the masked network address and the broadcast address
(members outside are silently dropped, as the counterexample shows), and
every address materialized from an output CIDR appears in the final
consolidated address output of `run`. -/
theorem c1_coverage :
    (∀ (g : List Int) (r : ExpandResult) (nb : Int × Int) (ips : List String) (m : Int),
      expand_group_properly g 10 10 = some r →
      cidrNetBroadcast r.cidr = some nb →
      cidr_to_ips r.cidr = some ips →
      m ∈ g → nb.1 < m → m < nb.2 → is_excluded (int_to_ip m) = some false →
      int_to_ip m ∈ ips) ∧
    (∀ (l : List String) (fp : Bool) (out : List String × List String) (c : String)
      (ips : List String) (a : String),
      run l fp = some out → c ∈ out.2 → cidr_to_ips c = some ips → a ∈ ips → a ∈ out.1) := by
  constructor
  · intro g r nb ips m hexp hnb hips hm hlo hhi hexcl
    obtain ⟨mn, mx, -, -, hcidr, hsub, -⟩ := expand_group_properly_spec hexp
    set p := (max 24 (min 32 (32 - (pyBitLength (mx - mn).toNat : Int)))).toNat with hp
    have hple : p ≤ 32 := (clamp_prefix_bounds _).2
    rw [hcidr] at hnb hips
    rw [cidrNetBroadcast_cidrTextOf hple] at hnb
    rw [cidr_to_ips_cidrTextOf hple] at hips
    cases hnb
    cases hips
    apply List.mem_filter.mpr
    refine ⟨List.mem_map.mpr ⟨m, ?_, rfl⟩, beq_some_false_iff.mpr hexcl⟩
    apply mem_intRange.mpr
    simp only at hlo hhi
    omega
  · intro l fp out c ips a hrun hc hips ha
    exact run_cidr_ips_in_out1 hrun hc hips ha

/-- C2 (amended).  There is no skip-and-continue handling of malformed
tokens: if any input token (one containing no tag marker, so that
stripping leaves it unchanged) has a non-numeric last dotted field, the
parse exception escapes and the whole `run` call fails, for either setting
of the private filter.  No `ParseError` or per-token skipping exists. -/
theorem c2_malformed_token_aborts (l : List String) (fp : Bool) (t : String) (f : List Char)
    (ht : t ∈ l) (hnoc : 'c' ∉ t.data)
    (hlast : (splitOnChar '.' t.data).getLast? = some f)
    (hbad : parseInt f = none) : run l fp = none := by
  have hid : pyReplaceCip t = t := by
    rw [pyReplaceCip, removeCip_of_not_mem _ hnoc]
  have hex : is_excluded t = none := by
    rw [is_excluded, hlast]
    simp [hbad]
  have hpriv : is_private_ip t = none := by
    rw [is_private_ip]
    have hmem : f ∈ splitOnChar '.' (removeCip t.data) := by
      rw [removeCip_of_not_mem _ hnoc]
      exact mem_of_getLast?_eq hlast
    rw [pyMapM_none_iff.mpr ⟨f, hmem, hbad⟩]
    rfl
  have htmem : t ∈ l.map pyReplaceCip := List.mem_map.mpr ⟨t, ht, hid⟩
  rw [run]
  rcases fp with _ | _
  · simp only [Bool.false_eq_true, if_false, Option.pure_def, Option.bind_eq_bind,
      Option.some_bind]
    rw [pyFilterM_none_iff.mpr ⟨t, htmem, by rw [keepNotExcluded, hex]; rfl⟩]
    rfl
  · simp only [if_true, Option.bind_eq_bind, filter_private_ips]
    rw [pyFilterM_none_iff.mpr ⟨t, htmem, by rw [keepNotPrivate, hpriv]; rfl⟩]
    rfl

/-- C3 (amended).  For well-formed input tokens every plain address in the
first output passes the exclusion check, and materializing a generated
CIDR block never emits the block's network or broadcast address.  (For
ill-formed tokens with an out-of-range octet the first part fails, see the
counterexample.) -/
theorem c3_exclusion_invariant :
    (∀ (l : List String) (fp : Bool) (out : List String × List String),
      (∀ s ∈ l, wellFormedIp s = true) → run l fp = some out →
      ∀ a ∈ out.1, is_excluded a = some false) ∧
    (∀ (mn : Int) (p : Nat) (nb : Int × Int) (ips : List String),
      p ≤ 32 → cidrNetBroadcast (cidrTextOf mn p) = some nb →
      cidr_to_ips (cidrTextOf mn p) = some ips →
      ∀ a ∈ ips, ip_to_int a ≠ some nb.1 ∧ ip_to_int a ≠ some nb.2) := by
  constructor
  · intro l fp out hwf hrun a ha
    rcases run_out1_cases hrun ha with ⟨c, hc, ips, hips, haips⟩ | ⟨m, rfl, t, htl, hm, hex, -⟩
    · obtain ⟨mn, p, rfl, -, hple⟩ := run_out2_shape hrun c hc
      exact mem_materialized_not_excluded hple hips haips
    · exact (wf_single_facts (hwf t htl) hm hex).2.2.1
  · intro mn p nb ips hp hnb hips a ha
    obtain ⟨hge, hlt, hsum⟩ := cidrNetBroadcast_bounds hp hnb
    rw [cidr_to_ips_cidrTextOf hp] at hips
    rw [cidrNetBroadcast_cidrTextOf hp] at hnb
    cases hips
    have hmem := (List.mem_filter.mp ha).1
    obtain ⟨i, hi, rfl⟩ := List.mem_map.mp hmem
    obtain ⟨hilo, hihi⟩ := mem_intRange.mp hi
    rw [ip_to_int_int_to_ip]
    cases hnb
    simp only at hge hlt hsum hilo hihi ⊢
    have hieq : i % 2 ^ 32 = i := by omega
    rw [hieq]
    constructor
    · intro hcon
      have := Option.some.inj hcon
      omega
    · intro hcon
      have := Option.some.inj hcon
      omega

/-- C4 (confirmed).  The gap clusterer equals the runs-based
specification: walk once, comparing each address with the last element
added to the current group, close a group at a gap above the threshold and
emit it as a Cluster iff it has at least two members; the empty input
yields two empty outputs and a one-address input yields a lone single. -/
theorem c4_gap_clusterer (l : List Int) (mg : Int) :
    group_by_gap l mg = clusterSpec l mg ∧
    group_by_gap [] mg = ([], []) ∧
    (∀ x : Int, group_by_gap [x] mg = ([], [x])) :=
  ⟨group_by_gap_eq_clusterSpec l mg, rfl, fun x => rfl⟩

/-- C5 (confirmed).  The CIDR of an expanded group is the literal minimum
of the expanded address list rendered as a dotted quad, a slash, and the
prefix length `32 - bit_length(max - min)` clamped into [24, 32]; the base
is not mask-aligned. -/
theorem c5_prefix_derivation (g : List Int) (f b : Nat) (r : ExpandResult)
    (h : expand_group_properly g f b = some r) :
    ∃ mn mx : Int, listMin r.ips_int = some mn ∧ listMax r.ips_int = some mx ∧
      r.cidr = cidrTextOf mn (max 24 (min 32 (32 - (pyBitLength (mx - mn).toNat : Int)))).toNat ∧
      24 ≤ (max 24 (min 32 (32 - (pyBitLength (mx - mn).toNat : Int)))).toNat ∧
      (max 24 (min 32 (32 - (pyBitLength (mx - mn).toNat : Int)))).toNat ≤ 32 := by
  obtain ⟨mn, mx, hmn, hmx, hcidr, -, -⟩ := expand_group_properly_spec h
  exact ⟨mn, mx, hmn, hmx, hcidr, (clamp_prefix_bounds _).1, (clamp_prefix_bounds _).2⟩

/-- C6 (confirmed).  `run` is order-independent: permuted inputs give
identical output; and every successful output has its address list sorted
ascending by integer value without duplicates, and its CIDR list sorted
ascending by the integer value of the network text before the slash. -/
theorem c6_determinism (l l' : List String) (fp : Bool) (hperm : l.Perm l') :
    run l fp = run l' fp ∧
    (∀ out : List String × List String, run l fp = some out →
      List.Pairwise (fun a b => (ip_to_int a).getD 0 ≤ (ip_to_int b).getD 0) out.1 ∧
      out.1.Nodup ∧
      List.Pairwise (fun a b => (cidrKeyOf a).getD 0 ≤ (cidrKeyOf b).getD 0) out.2) :=
  ⟨run_perm_invariant l l' fp hperm, fun _ h => run_out_sorted h⟩

/-- C7 (amended).  With the private filter on, a private address can reach
the output only through CIDR materialization: every address in the first
output either comes from materializing one of the output CIDR blocks or is
a surviving input single, and the latter is never private (for well-formed
tokens).  (Materialized addresses can be private, see the
counterexample.) -/
theorem c7_private_filter (l : List String) (out : List String × List String)
    (hwf : ∀ s ∈ l, wellFormedIp s = true) (hrun : run l true = some out) :
    ∀ a ∈ out.1, is_private_ip a = some true →
      ∃ c ∈ out.2, ∃ ips, cidr_to_ips c = some ips ∧ a ∈ ips := by
  intro a ha hapriv
  rcases run_out1_cases hrun ha with ⟨c, hc, ips, hips, haips⟩ | ⟨m, rfl, t, htl, hm, hex, hpr⟩
  · exact ⟨c, hc, ips, hips, haips⟩
  · have := (wf_single_facts (hwf t htl) hm hex).2.2.2 (hpr rfl)
    rw [hapriv] at this
    cases this

/-- C8 (amended).  A prefix length above 32 makes `cidr_to_ips` fail with
the (uncaught) negative-shift exception — it neither returns an empty list
nor raises a dedicated error type, and an unparsable network part fails
the same way. -/
theorem c8_invalid_prefix (c : String) (network pstr : List Char) (k : Int)
    (hsplit : splitOnChar '/' c.data = [network, pstr])
    (hparse : parseInt pstr = some k) (hk : 32 < k) : cidr_to_ips c = none := by
  have hmem : '/' ∈ c.data := by
    by_contra hnot
    rw [splitOnChar_of_not_mem hnot] at hsplit
    cases hsplit
  rw [cidr_to_ips_two_parts hmem hsplit, hparse]
  simp only [Option.bind_eq_bind, Option.some_bind]
  rcases hnet : ip_to_int (String.mk (removeCip network)) with _ | v
  · rfl
  · simp only [Option.some_bind]
    rw [if_pos (by omega)]

/-- C10 (confirmed).  `int_to_ip` is total over all integers: each masked
octet lies in [0, 255], re-parsing the rendered quad yields the value
modulo `2 ^ 32` (so padding below zero silently wraps), and the round trip
is the identity exactly on [0, 2 ^ 32). -/
theorem c10_int_to_ip_total (n : Int) :
    (∀ k : Nat, 0 ≤ pyOctet n k ∧ pyOctet n k < 256) ∧
    ip_to_int (int_to_ip n) = some (n % 2 ^ 32) ∧
    (ip_to_int (int_to_ip n) = some n ↔ 0 ≤ n ∧ n < 2 ^ 32) := by
  refine ⟨fun k => ⟨pyOctet_nonneg n k, pyOctet_lt n k⟩, ip_to_int_int_to_ip n, ?_⟩
  rw [ip_to_int_int_to_ip]
  constructor
  · intro h
    have := Option.some.inj h
    omega
  · intro h
    congr 1
    omega

set_option maxHeartbeats 1000000

/-- The bucket key of an address integer, written out as the join of its
first three octet renderings. -/
theorem prefixKeyOf_data (m : Int) :
    prefixKeyOf m = String.mk (joinDots [octChars m 24, octChars m 16, octChars m 8]) := by
  rw [prefixKeyOf, splitOnChar_int_to_ip]
  rfl

theorem joinDots_three (a b c : List Char) :
    joinDots [a, b, c] = a ++ '.' :: (b ++ '.' :: c) := rfl

theorem splitOnChar_joinDots_three {a b c : List Char}
    (ha : '.' ∉ a) (hb : '.' ∉ b) (hc : '.' ∉ c) :
    splitOnChar '.' (joinDots [a, b, c]) = [a, b, c] := by
  rw [joinDots_three, splitOnChar_append _ ha, splitOnChar_append _ hb,
    splitOnChar_of_not_mem hc]

theorem pyOctet_eq_of_div256 {m m' : Int} (h : m / 256 = m' / 256) :
    pyOctet m 24 = pyOctet m' 24 ∧ pyOctet m 16 = pyOctet m' 16 ∧
      pyOctet m 8 = pyOctet m' 8 := by
  simp only [pyOctet]
  norm_num
  omega

theorem div256_of_pyOctet_eq {m m' : Int}
    (hm : 0 ≤ m ∧ m < 2 ^ 32) (hm' : 0 ≤ m' ∧ m' < 2 ^ 32)
    (h24 : pyOctet m 24 = pyOctet m' 24) (h16 : pyOctet m 16 = pyOctet m' 16)
    (h8 : pyOctet m 8 = pyOctet m' 8) : m / 256 = m' / 256 := by
  simp only [pyOctet] at h24 h16 h8
  norm_num at h24 h16 h8 ⊢
  omega

/-- On 32-bit values the string bucket key identifies exactly the upper 24
bits. -/
theorem prefixKeyOf_eq_iff {m m' : Int}
    (hm : 0 ≤ m ∧ m < 2 ^ 32) (hm' : 0 ≤ m' ∧ m' < 2 ^ 32) :
    prefixKeyOf m = prefixKeyOf m' ↔ m / 256 = m' / 256 := by
  constructor
  · intro h
    rw [prefixKeyOf_data, prefixKeyOf_data] at h
    have hsplit := congrArg (fun t : String => splitOnChar '.' t.data) h
    simp only [string_mk_data] at hsplit
    rw [splitOnChar_joinDots_three (dot_not_mem_octChars m 24) (dot_not_mem_octChars m 16)
        (dot_not_mem_octChars m 8),
      splitOnChar_joinDots_three (dot_not_mem_octChars m' 24) (dot_not_mem_octChars m' 16)
        (dot_not_mem_octChars m' 8)] at hsplit
    simp only [List.cons.injEq, and_true] at hsplit
    obtain ⟨h24, h16, h8⟩ := hsplit
    have p24 : pyOctet m 24 = pyOctet m' 24 := by
      have := congrArg parseInt h24
      rw [parseInt_octChars, parseInt_octChars] at this
      exact Option.some.inj this
    have p16 : pyOctet m 16 = pyOctet m' 16 := by
      have := congrArg parseInt h16
      rw [parseInt_octChars, parseInt_octChars] at this
      exact Option.some.inj this
    have p8 : pyOctet m 8 = pyOctet m' 8 := by
      have := congrArg parseInt h8
      rw [parseInt_octChars, parseInt_octChars] at this
      exact Option.some.inj this
    exact div256_of_pyOctet_eq hm hm' p24 p16 p8
  · intro h
    obtain ⟨h24, h16, h8⟩ := pyOctet_eq_of_div256 h
    rw [prefixKeyOf_data, prefixKeyOf_data]
    simp only [octChars, h24, h16, h8]

/-- `int_to_ip` is injective on 32-bit values. -/
theorem int_to_ip_inj {m m' : Int}
    (hm : 0 ≤ m ∧ m < 2 ^ 32) (hm' : 0 ≤ m' ∧ m' < 2 ^ 32)
    (h : int_to_ip m = int_to_ip m') : m = m' := by
  have := congrArg ip_to_int h
  rw [ip_to_int_int_to_ip, ip_to_int_int_to_ip] at this
  have h2 := Option.some.inj this
  omega

theorem pyDedup_aux : ∀ (l acc : List String), acc.Nodup → (∀ x ∈ l, x ∉ acc) → l.Nodup →
    l.foldl (fun acc x => if x ∈ acc then acc else acc ++ [x]) acc = acc ++ l
  | [], acc, _, _, _ => by simp
  | x :: xs, acc, hacc, hdisj, hnd => by
    simp only [List.foldl_cons]
    rw [if_neg (hdisj x (List.mem_cons_self x xs))]
    rw [pyDedup_aux xs (acc ++ [x])
      (by
        rw [List.nodup_append]
        refine ⟨hacc, List.nodup_singleton x, ?_⟩
        intro y hy hymem
        rw [List.mem_singleton] at hymem
        subst hymem
        exact hdisj y (List.mem_cons_self y xs) hy)
      (by
        intro y hy
        rw [List.mem_append, List.mem_singleton]
        push_neg
        exact ⟨hdisj y (List.mem_cons_of_mem x hy),
          fun hxy => (List.nodup_cons.mp hnd).1 (hxy ▸ hy)⟩)
      (List.nodup_cons.mp hnd).2]
    simp

/-- First-occurrence deduplication is the identity on duplicate-free
lists. -/
theorem pyDedup_eq_self {l : List String} (h : l.Nodup) : pyDedup l = l := by
  rw [pyDedup, pyDedup_aux l [] List.nodup_nil (by simp) h]
  rfl

theorem pyFilterM_all_true {p : α → Option Bool} : ∀ {l : List α},
    (∀ x ∈ l, p x = some true) → pyFilterM p l = some l
  | [], _ => rfl
  | x :: xs, h => by
    rw [pyFilterM, h x (List.mem_cons_self x xs),
      pyFilterM_all_true (fun y hy => h y (List.mem_cons_of_mem x hy))]
    rfl

theorem pyReplaceCip_int_to_ip (m : Int) : pyReplaceCip (int_to_ip m) = int_to_ip m := by
  rw [pyReplaceCip, string_mk_data, removeCip_int_to_ip]

theorem pyMapM_ip_to_int_render {s : List Int} (h : ∀ m ∈ s, 0 ≤ m ∧ m < 2 ^ 32) :
    pyMapM ip_to_int (s.map int_to_ip) = some s := by
  apply pyMapM_forall₂.mpr
  rw [List.forall₂_map_left_iff]
  apply (List.forall₂_same).mpr
  intro m hm
  rw [ip_to_int_int_to_ip]
  have := h m hm
  congr 1
  omega

theorem addrKeyed_render {s : List Int} (h : ∀ m ∈ s, 0 ≤ m ∧ m < 2 ^ 32) :
    addrKeyed (s.map int_to_ip) = some (s.map (fun m => (int_to_ip m, m))) := by
  apply pyMapM_forall₂.mpr
  rw [List.forall₂_map_left_iff, List.forall₂_map_right_iff]
  apply (List.forall₂_same).mpr
  intro m hm
  rw [ip_to_int_int_to_ip]
  have := h m hm
  simp only [Option.bind_eq_bind, Option.some_bind, Option.pure_def, Option.some.injEq,
    Prod.mk.injEq, true_and]
  omega

theorem pairwise_of_filter_pairwise {q : Int → Bool} {R : Int → Int → Prop} :
    ∀ {l : List Int}, (l.filter q).Pairwise R →
      l.Pairwise (fun a b => q a = true → q b = true → R a b)
  | [], _ => List.Pairwise.nil
  | x :: xs, h => by
    rcases hq : q x with _ | _
    · rw [List.filter_cons_of_neg (by simp [hq])] at h
      apply List.pairwise_cons.mpr
      refine ⟨(fun b _ hqx => by rw [hq] at hqx; cases hqx), pairwise_of_filter_pairwise h⟩
    · rw [List.filter_cons_of_pos hq] at h
      obtain ⟨hx, hrest⟩ := List.pairwise_cons.mp h
      apply List.pairwise_cons.mpr
      refine ⟨?_, pairwise_of_filter_pairwise hrest⟩
      intro b hb _ hqb
      exact hx b (List.mem_filter.mpr ⟨hb, hqb⟩)

/-- If every `/24` bucket of a `≤`-sorted 32-bit address list has all
consecutive gaps above 8, then any two elements of the list in order are
strictly increasing and, when they share the upper 24 bits, more than 8
apart. -/
theorem spread_of_buckets {s : List Int}
    (hsorted : s.Pairwise (fun a b => a ≤ b))
    (hrange : ∀ m ∈ s, 0 ≤ m ∧ m < 2 ^ 32)
    (hbuckets : ∀ k : String,
      List.Chain' (fun a b => 8 < b - a) (s.filter (fun i => prefixKeyOf i == k))) :
    s.Pairwise (fun a b => a < b ∧ (a / 256 = b / 256 → 8 < b - a)) := by
  rw [List.pairwise_iff_getElem] at hsorted ⊢
  intro i j hi hj hij
  have hle := hsorted i j hi hj hij
  have hai : s[i] ∈ s := List.getElem_mem hi
  have haj : s[j] ∈ s := List.getElem_mem hj
  by_cases hdiv : s[i] / 256 = s[j] / 256
  · have hkey : prefixKeyOf s[i] = prefixKeyOf s[j] :=
      (prefixKeyOf_eq_iff (hrange _ hai) (hrange _ haj)).mpr hdiv
    have hch := hbuckets (prefixKeyOf s[i])
    have hpw : (s.filter (fun x => prefixKeyOf x == prefixKeyOf s[i])).Pairwise
        (fun a b => 8 < b - a) := by
      haveI : IsTrans Int (fun a b => 8 < b - a) := ⟨fun a b c hab hbc => by omega⟩
      exact List.chain'_iff_pairwise.mp hch
    have hfull := pairwise_of_filter_pairwise hpw
    rw [List.pairwise_iff_getElem] at hfull
    have hgap := hfull i j hi hj hij (by simp) (by simp [hkey])
    exact ⟨by omega, fun _ => hgap⟩
  · refine ⟨?_, fun hd => absurd hd hdiv⟩
    rcases lt_or_eq_of_le hle with h | h
    · exact h
    · exact absurd (by rw [h]) hdiv

/-- Conversely, the spread property forces every `/24` bucket produced by
the partitioner to have all consecutive gaps above 8. -/
theorem buckets_of_spread {s : List Int}
    (hrange : ∀ m ∈ s, 0 ≤ m ∧ m < 2 ^ 32)
    (hsp : s.Pairwise (fun a b => a < b ∧ (a / 256 = b / 256 → 8 < b - a)))
    {p : String × List Int} (hp : p ∈ partitionBuckets s) :
    List.Chain' (fun a b => 8 < b - a) p.2 := by
  obtain ⟨-, hval, -⟩ := partitionBuckets_spec s
  rw [hval p hp]
  apply List.Pairwise.chain'
  have hfil := hsp.filter (fun i => prefixKeyOf i == p.1)
  apply hfil.imp_of_mem
  intro a b ha hb hab
  have hka : prefixKeyOf a = p.1 := by simpa using (List.mem_filter.mp ha).2
  have hkb : prefixKeyOf b = p.1 := by simpa using (List.mem_filter.mp hb).2
  have hma : a ∈ s := (List.mem_filter.mp ha).1
  have hmb : b ∈ s := (List.mem_filter.mp hb).1
  exact hab.2 ((prefixKeyOf_eq_iff (hrange a hma) (hrange b hmb)).mp (hka.trans hkb.symm))

theorem spread_nodup {s : List Int}
    (hsp : s.Pairwise (fun a b => a < b ∧ (a / 256 = b / 256 → 8 < b - a))) : s.Nodup :=
  List.Pairwise.imp (fun h => by omega) hsp

theorem pairwise_lt_of_le_nodup {l : List (String × Int)}
    (hle : l.Pairwise (fun a b => a.2 ≤ b.2))
    (hnd : (l.map (fun p => p.2)).Nodup) :
    l.Pairwise (fun a b => a.2 < b.2) := by
  have hne : l.Pairwise (fun a b => a.2 ≠ b.2) := List.pairwise_map.mp hnd
  exact (hle.and hne).imp (fun h => lt_of_le_of_ne h.1 h.2)

/-- Sorting key-decorated renders of a permutation of a strictly sorted
32-bit list recovers the sorted list itself. -/
theorem keyed_sort_eq {s F : List Int} (hperm : F.Perm s)
    (hs : s.Pairwise (fun a b : Int => a < b)) :
    List.insertionSort (fun a b => a.2 ≤ b.2) (F.map (fun m => (int_to_ip m, m)))
      = s.map (fun m => (int_to_ip m, m)) := by
  haveI : IsAntisymm (String × Int) (fun p q => p.2 < q.2) :=
    ⟨fun a b h1 h2 => absurd h2 (by omega)⟩
  apply List.eq_of_perm_of_sorted (r := fun p q : String × Int => p.2 < q.2)
  · exact ((List.perm_insertionSort _ _).trans (hperm.map _))
  · apply pairwise_lt_of_le_nodup
    · haveI := pairSortTotal
      haveI := pairSortTrans
      exact List.sorted_insertionSort _ _
    · have h1 : ((List.insertionSort (fun a b => a.2 ≤ b.2)
          (F.map (fun m => (int_to_ip m, m)))).map (fun p => p.2)).Perm F := by
        have h2 := (List.perm_insertionSort (fun a b : String × Int => a.2 ≤ b.2)
          (F.map (fun m => (int_to_ip m, m)))).map (fun p => p.2)
        rw [List.map_map] at h2
        simp only [Function.comp_def] at h2
        simpa using h2
      have hsnd : s.Pairwise (fun a b : Int => a ≠ b) := hs.imp (fun h => by omega)
      exact h1.nodup_iff.mpr (hperm.nodup_iff.mpr hsnd)
  · show List.Pairwise (fun p q : String × Int => p.2 < q.2)
      (s.map (fun m => (int_to_ip m, m)))
    exact List.pairwise_map.mpr hs

theorem processBucket_no_groups {ips : List Int} (h : group_by_gap ips 8 = ([], ips)) :
    processBucket ips = some ([], [], ips.map int_to_ip) := by
  rw [processBucket, h]
  rfl

/-- On a strictly spread 32-bit list (pairwise increasing, same-bucket
pairs more than 8 apart) the assembly tail is the identity: every bucket
clusters to singles only, no CIDR is generated, and the merged, deduped,
sorted output is just the rendering of the list. -/
theorem assemble_fixed {s : List Int}
    (hsp : s.Pairwise (fun a b => a < b ∧ (a / 256 = b / 256 → 8 < b - a)))
    (hrange : ∀ m ∈ s, 0 ≤ m ∧ m < 2 ^ 32) :
    assemble s = some (s.map int_to_ip, []) := by
  obtain ⟨-, -, hperm⟩ := partitionBuckets_spec s
  have hres : pyMapM (fun b => processBucket b.2) (partitionBuckets s)
      = some ((partitionBuckets s).map (fun b => ([], [], b.2.map int_to_ip))) :=
    pyMapM_eq_map (fun p hp =>
      processBucket_no_groups (group_by_gap_of_big_gaps (buckets_of_spread hrange hsp hp)))
  have hFrange : ∀ m ∈ ((partitionBuckets s).map Prod.snd).flatten, 0 ≤ m ∧ m < 2 ^ 32 :=
    fun m hm => hrange m (hperm.mem_iff.mp hm)
  have hFnodup : (((partitionBuckets s).map Prod.snd).flatten.map int_to_ip).Nodup := by
    apply List.Nodup.map_on
    · intro x hx y hy hxy
      exact int_to_ip_inj (hFrange x hx) (hFrange y hy) hxy
    · exact hperm.nodup_iff.mpr (spread_nodup hsp)
  have hc1 : (((partitionBuckets s).map (fun b => (([] : List String),
      ([] : List String), b.2.map int_to_ip))).map (fun r => r.1)).flatten = [] := by
    rw [List.map_map]
    apply List.flatten_eq_nil_iff.mpr
    intro l hl
    obtain ⟨b, -, rfl⟩ := List.mem_map.mp hl
    rfl
  have hc2 : (((partitionBuckets s).map (fun b => (([] : List String),
      ([] : List String), b.2.map int_to_ip))).map (fun r => r.2.1)).flatten = [] := by
    rw [List.map_map]
    apply List.flatten_eq_nil_iff.mpr
    intro l hl
    obtain ⟨b, -, rfl⟩ := List.mem_map.mp hl
    rfl
  have hc3 : (((partitionBuckets s).map (fun b => (([] : List String),
      ([] : List String), b.2.map int_to_ip))).map (fun r => r.2.2)).flatten
      = ((partitionBuckets s).map Prod.snd).flatten.map int_to_ip := by
    rw [List.map_map, List.map_flatten, List.map_map]
    rfl
  rw [assemble, hres]
  simp only [Option.bind_eq_bind, Option.some_bind]
  rw [hc1, hc2, hc3, List.nil_append, pyDedup_eq_self hFnodup,
    addrKeyed_render hFrange]
  simp only [Option.some_bind]
  rw [keyed_sort_eq hperm (hsp.imp And.left)]
  simp only [List.map_map]
  rfl

/-- Running the engine on the rendering of a strictly spread 32-bit list
(with no private filter and no excluded endings) returns exactly that
rendering and no CIDR blocks. -/
theorem run_render_fixed {s : List Int}
    (hsp : s.Pairwise (fun a b => a < b ∧ (a / 256 = b / 256 → 8 < b - a)))
    (hrange : ∀ m ∈ s, 0 ≤ m ∧ m < 2 ^ 32)
    (hexc : ∀ m ∈ s, (pyOctet m 0 == 0 || pyOctet m 0 == 255) = false) :
    run (s.map int_to_ip) false = some (s.map int_to_ip, []) := by
  have hclean : (s.map int_to_ip).map pyReplaceCip = s.map int_to_ip := by
    rw [List.map_map]
    apply List.map_congr_left
    intro m _
    exact pyReplaceCip_int_to_ip m
  have hfil : pyFilterM keepNotExcluded (s.map int_to_ip) = some (s.map int_to_ip) := by
    apply pyFilterM_all_true
    intro t ht
    obtain ⟨m, hm, rfl⟩ := List.mem_map.mp ht
    rw [keepNotExcluded, is_excluded_int_to_ip, hexc m hm]
    rfl
  rw [run]
  simp only [Bool.false_eq_true, if_false, Option.pure_def, Option.bind_eq_bind,
    Option.some_bind]
  rw [hclean, hfil]
  simp only [Option.some_bind]
  by_cases hs0 : s = []
  · subst hs0
    rfl
  · rw [if_neg (by simp [hs0])]
    rw [pyMapM_ip_to_int_render hrange]
    simp only [Option.some_bind]
    have hsle : List.Sorted (fun a b : Int => a ≤ b) s := hsp.imp (fun h => le_of_lt h.1)
    rw [hsle.insertionSort_eq]
    exact assemble_fixed hsp hrange

/-- C9 (amended).  `run` is not idempotent in general (materialized CIDR
addresses seed further expansion, see the counterexample), but a CIDR-free
output is a true fixed point: for well-formed inputs with the private
filter off, if the run yields no CIDR blocks then re-running it on its own
address output reproduces the output exactly. -/
theorem c9_fixed_point (l : List String) (out : List String × List String)
    (hwf : ∀ t ∈ l, wellFormedIp t = true)
    (hrun : run l false = some out) (hnoc : out.2 = []) :
    run out.1 false = some out := by
  obtain ⟨cl2, valid, hcl2, hva, hrest⟩ := run_some_inv hrun
  rw [if_neg (by simp)] at hcl2
  have hcl2' : cl2 = l.map pyReplaceCip := (Option.some.inj hcl2).symm
  obtain ⟨hallsome, hvfilter⟩ := pyFilterM_eq_some_iff.mp hva
  have hvalid_mem : ∀ t ∈ valid, t ∈ l ∧ wellFormedIp t = true ∧
      keepNotExcluded t = some true := by
    intro t ht
    rw [hvfilter, hcl2'] at ht
    have ht1 := (List.mem_filter.mp ht).1
    have ht2 := (List.mem_filter.mp ht).2
    obtain ⟨t0, ht0, rfl⟩ := List.mem_map.mp ht1
    rw [pyReplaceCip_of_wf (hwf t0 ht0)] at ht2 ⊢
    refine ⟨ht0, hwf t0 ht0, ?_⟩
    rcases hk : keepNotExcluded t0 with _ | b
    · rw [hk] at ht2
      cases ht2
    · rw [hk] at ht2
      simp only [Option.getD_some] at ht2
      rw [ht2]
  rcases hrest with ⟨hv0, rfl⟩ | ⟨hvne, ints, hints, hasm⟩
  · rfl
  · have hint_facts : ∀ m ∈ ints, (0 ≤ m ∧ m < 2 ^ 32) ∧
        (pyOctet m 0 == 0 || pyOctet m 0 == 255) = false := by
      intro m hm
      obtain ⟨t, ht, htm⟩ := forall₂_mem_right (pyMapM_forall₂.mp hints) m hm
      obtain ⟨htl, htwf, htke⟩ := hvalid_mem t ht
      have hm' : ip_to_int (pyReplaceCip t) = some m := by
        rw [pyReplaceCip_of_wf htwf]
        exact htm
      have hke' : keepNotExcluded (pyReplaceCip t) = some true := by
        rw [pyReplaceCip_of_wf htwf]
        exact htke
      obtain ⟨h0, h1, hex, -⟩ := wf_single_facts htwf hm' hke'
      rw [is_excluded_int_to_ip] at hex
      exact ⟨⟨h0, h1⟩, Option.some.inj hex⟩
    have hsperm : (List.insertionSort (fun a b => a ≤ b) ints).Perm ints :=
      List.perm_insertionSort _ ints
    set s := List.insertionSort (fun a b => a ≤ b) ints with hsdef
    have hrange : ∀ m ∈ s, 0 ≤ m ∧ m < 2 ^ 32 :=
      fun m hm => (hint_facts m (hsperm.mem_iff.mp hm)).1
    have hexc : ∀ m ∈ s, (pyOctet m 0 == 0 || pyOctet m 0 == 255) = false :=
      fun m hm => (hint_facts m (hsperm.mem_iff.mp hm)).2
    obtain ⟨results, keyed, ckeyed, hres, hkeyed, hck, hout1, hout2⟩ := assemble_inv hasm
    rw [hnoc] at hout2
    have hsortnil : List.insertionSort (fun a b => a.2 ≤ b.2) ckeyed = [] :=
      List.map_eq_nil_iff.mp hout2.symm
    have hck0 : ckeyed = [] := by
      have hp := List.perm_insertionSort (fun a b : String × Int => a.2 ≤ b.2) ckeyed
      rw [hsortnil] at hp
      exact List.perm_nil.mp hp.symm
    subst hck0
    have hcidrnil : (results.map (fun r => r.2.1)).flatten = [] := by
      have h2 := (cidrKeyed_inv hck).1
      simpa using h2.symm
    have hnog : ∀ p ∈ partitionBuckets s, (group_by_gap p.2 8).1 = [] := by
      intro p hp
      obtain ⟨r, hr, hpr⟩ := forall₂_mem_left (pyMapM_forall₂.mp hres) p hp
      obtain ⟨eresults, heres, cidrIps, hci, hreq⟩ := processBucket_inv hpr
      have hr21 : r.2.1 = [] :=
        (List.flatten_eq_nil_iff.mp hcidrnil) _ (List.mem_map_of_mem _ hr)
      rw [hreq] at hr21
      simp only at hr21
      have her0 : eresults = [] := List.map_eq_nil_iff.mp hr21
      rw [her0] at heres
      exact List.forall₂_nil_right_iff.mp (pyMapM_forall₂.mp heres)
    have hchains : ∀ p ∈ partitionBuckets s, List.Chain' (fun a b => 8 < b - a) p.2 :=
      fun p hp => (group_by_gap_no_groups (hnog p hp)).1
    have hallk : ∀ k : String,
        List.Chain' (fun a b => 8 < b - a) (s.filter (fun i => prefixKeyOf i == k)) := by
      intro k
      obtain ⟨hkeys, hval, hperm⟩ := partitionBuckets_spec s
      by_cases hex2 : ∃ x ∈ s, prefixKeyOf x = k
      · obtain ⟨x, hx, hkx⟩ := hex2
        have hx2 : x ∈ ((partitionBuckets s).map Prod.snd).flatten := hperm.mem_iff.mpr hx
        obtain ⟨lvals, hl, hxl⟩ := List.mem_flatten.mp hx2
        obtain ⟨p, hp, rfl⟩ := List.mem_map.mp hl
        have hfp := hval p hp
        rw [hfp] at hxl
        have hxk : prefixKeyOf x = p.1 := by simpa using (List.mem_filter.mp hxl).2
        have hkp : p.1 = k := by rw [← hxk, hkx]
        have hc := hchains p hp
        rw [hfp, hkp] at hc
        exact hc
      · push_neg at hex2
        have hnil : s.filter (fun i => prefixKeyOf i == k) = [] := by
          apply List.filter_eq_nil_iff.mpr
          intro x hx
          simpa using hex2 x hx
        rw [hnil]
        exact List.chain'_nil
    have hsle : s.Pairwise (fun a b : Int => a ≤ b) := List.sorted_insertionSort _ ints
    have hsp := spread_of_buckets hsle hrange hallk
    have hfix := assemble_fixed hsp hrange
    rw [hasm] at hfix
    have hout : out = (s.map int_to_ip, []) := Option.some.inj hfix
    rw [hout]
    exact run_render_fixed hsp hrange hexc


set_option maxRecDepth 200000

/-- The cluster `{1.2.3.1, 1.2.3.2}` is recognized by the clusterer, `run`
succeeds on it, yet neither member appears in the final address output:
the derived CIDR `1.2.2.245/27` is mask-chopped during materialization and
covers `1.2.2.225–254` only. -/
theorem c1_counterexample :
    ip_to_int "1.2.3.1" = some 16909057 ∧ ip_to_int "1.2.3.2" = some 16909058 ∧
    group_by_gap [16909057, 16909058] 8 = ([[16909057, 16909058]], []) ∧
    (run ["1.2.3.1", "1.2.3.2"] true).isSome = true ∧
    "1.2.3.1" ∉ ((run ["1.2.3.1", "1.2.3.2"] true).getD ([], [])).1 :=
  ⟨by decide, by decide, by decide, by decide, by decide⟩

/-- One malformed token aborts the whole batch: the same input without the
bad token succeeds. -/
theorem c2_counterexample :
    run ["8.8.8.8", "8.8.8.x"] true = none ∧
    run ["8.8.8.8"] true = some (["8.8.8.8"], []) :=
  ⟨by decide, by decide⟩

/-- An out-of-range octet parses without error and the bitwise OR folds it
into the address, producing an output address that fails the exclusion
check. -/
theorem c3_counterexample :
    run ["1.2.3.256"] true = some (["1.2.3.0"], []) ∧
    is_excluded "1.2.3.0" = some true :=
  ⟨by decide, by decide⟩

/-- With the private filter on, expansion of two public `11.0.0.x`
addresses pads backwards across the `/8` boundary and materializes
addresses inside `10.0.0.0/8`. -/
theorem c7_counterexample :
    (run ["11.0.0.1", "11.0.0.2"] true).isSome = true ∧
    "10.255.255.230" ∈ ((run ["11.0.0.1", "11.0.0.2"] true).getD ([], [])).1 ∧
    is_private_ip "10.255.255.230" = some true :=
  ⟨by decide, by decide, by decide⟩

/-- A prefix length above 32 neither yields an empty list nor a dedicated
error: the negative shift raises an uncaught exception (modelled as
`none`). -/
theorem c8_counterexample : cidr_to_ips "1.2.3.4/33" = none := by decide

/-- Re-running the consolidator on its own address output does not
reproduce the same address set when CIDR blocks were generated: the second
run expands further. -/
theorem c9_counterexample :
    (run ["1.2.3.1", "1.2.3.2"] false).isSome = true ∧
    (run (((run ["1.2.3.1", "1.2.3.2"] false).getD ([], [])).1) false).isSome = true ∧
    "1.2.2.193" ∈
      ((run (((run ["1.2.3.1", "1.2.3.2"] false).getD ([], [])).1) false).getD ([], [])).1 ∧
    "1.2.2.193" ∉ ((run ["1.2.3.1", "1.2.3.2"] false).getD ([], [])).1 :=
  ⟨by decide, by decide, by decide, by decide⟩

theorem c1_coverage_witness :
    (expand_group_properly [16909106, 16909111] 10 10).isSome = true ∧
    int_to_ip 16909106 ∈ (cidr_to_ips ((expand_group_properly [16909106, 16909111] 10 10).getD
      ⟨"", [], "", "", 0, 0⟩).cidr).getD [] :=
  ⟨by decide,
    c1_coverage.1 [16909106, 16909111]
      ((expand_group_properly [16909106, 16909111] 10 10).getD ⟨"", [], "", "", 0, 0⟩)
      (16909088, 16909119)
      ((cidr_to_ips ((expand_group_properly [16909106, 16909111] 10 10).getD
        ⟨"", [], "", "", 0, 0⟩).cidr).getD [])
      16909106 (by decide) (by decide) (by decide) (by decide) (by decide) (by decide)
      (by decide)⟩

theorem c2_malformed_witness :
    "8.8.8.x" ∈ ["8.8.8.x"] ∧ run ["8.8.8.x"] true = none :=
  ⟨by decide, c2_malformed_token_aborts ["8.8.8.x"] true "8.8.8.x" ['x']
    (by decide) (by decide) (by decide) (by decide)⟩

theorem c3_exclusion_witness :
    run ["8.8.8.8"] true = some (["8.8.8.8"], []) ∧ is_excluded "8.8.8.8" = some false :=
  ⟨by decide, c3_exclusion_invariant.1 ["8.8.8.8"] true (["8.8.8.8"], [])
    (by decide) (by decide) "8.8.8.8" (by decide)⟩

theorem c5_prefix_witness :
    ∃ mn mx : Int,
      listMin ((expand_group_properly [16909106, 16909111] 10 10).getD
        ⟨"", [], "", "", 0, 0⟩).ips_int = some mn ∧
      listMax ((expand_group_properly [16909106, 16909111] 10 10).getD
        ⟨"", [], "", "", 0, 0⟩).ips_int = some mx ∧
      ((expand_group_properly [16909106, 16909111] 10 10).getD
        ⟨"", [], "", "", 0, 0⟩).cidr = cidrTextOf mn
        (max 24 (min 32 (32 - (pyBitLength (mx - mn).toNat : Int)))).toNat ∧
      24 ≤ (max 24 (min 32 (32 - (pyBitLength (mx - mn).toNat : Int)))).toNat ∧
      (max 24 (min 32 (32 - (pyBitLength (mx - mn).toNat : Int)))).toNat ≤ 32 :=
  c5_prefix_derivation [16909106, 16909111] 10 10 _ (by decide)

theorem c6_determinism_witness :
    List.Perm ["8.8.8.8", "1.1.1.1"] ["1.1.1.1", "8.8.8.8"] ∧
    (run ["8.8.8.8", "1.1.1.1"] true = run ["1.1.1.1", "8.8.8.8"] true ∧
      (∀ out : List String × List String, run ["8.8.8.8", "1.1.1.1"] true = some out →
        List.Pairwise (fun a b => (ip_to_int a).getD 0 ≤ (ip_to_int b).getD 0) out.1 ∧
        out.1.Nodup ∧
        List.Pairwise (fun a b => (cidrKeyOf a).getD 0 ≤ (cidrKeyOf b).getD 0) out.2)) :=
  ⟨by decide, c6_determinism ["8.8.8.8", "1.1.1.1"] ["1.1.1.1", "8.8.8.8"] true (by decide)⟩

theorem c7_private_filter_witness :
    run ["8.8.8.8"] true = some (["8.8.8.8"], []) ∧
    (∀ a ∈ (["8.8.8.8"], ([] : List String)).1, is_private_ip a = some true →
      ∃ c ∈ (["8.8.8.8"], ([] : List String)).2, ∃ ips, cidr_to_ips c = some ips ∧ a ∈ ips) :=
  ⟨by decide, c7_private_filter ["8.8.8.8"] (["8.8.8.8"], []) (by decide) (by decide)⟩

theorem c8_invalid_prefix_witness :
    parseInt ['3', '3'] = some 33 ∧ cidr_to_ips "1.2.3.4/33" = none :=
  ⟨by decide, c8_invalid_prefix "1.2.3.4/33" ['1', '.', '2', '.', '3', '.', '4'] ['3', '3'] 33
    (by decide) (by decide) (by decide)⟩

theorem c9_fixed_point_witness :
    run ["8.8.8.8", "1.1.1.1"] false = some (["1.1.1.1", "8.8.8.8"], []) ∧
    run ["1.1.1.1", "8.8.8.8"] false = some (["1.1.1.1", "8.8.8.8"], []) :=
  ⟨by decide, c9_fixed_point ["8.8.8.8", "1.1.1.1"] (["1.1.1.1", "8.8.8.8"], [])
    (by decide) (by decide) rfl⟩
